import Mathlib

/-!
Shallow embedding of the `filemaker-rag` repository core:
`FileMakerGraph.parse_xml` / `bfs_search` / `dfs_search` / `get_node_context`
(src/filemaker_graph.py) and `FileMakerRAG.format_context` (src/rag_system.py),
together with theorems settling the specification claims about them.
-/

/-- Association-list lookup, first match wins (Python dict read). -/
def lookupA {β : Type} : List (String × β) → String → Option β
  | [], _ => none
  | (k, v) :: rest, key => if k = key then some v else lookupA rest key

/-- Python dict assignment `d[k] = v`: update the existing key in place
(keeping its position), otherwise append a fresh entry at the end. -/
def dictSet {β : Type} : List (String × β) → String → β → List (String × β)
  | [], key, v => [(key, v)]
  | (k, w) :: rest, key, v =>
    if k = key then (k, v) :: rest else (k, w) :: dictSet rest key v

theorem lookupA_dictSet_self {β : Type} (l : List (String × β)) (k : String) (v : β) :
    lookupA (dictSet l k v) k = some v := by
  induction l with
  | nil => simp [dictSet, lookupA]
  | cons p rest ih =>
    obtain ⟨k', w⟩ := p
    by_cases h : k' = k
    · simp [dictSet, h, lookupA]
    · simp [dictSet, h, lookupA, ih]

theorem lookupA_dictSet_other {β : Type} (l : List (String × β)) (k k' : String) (v : β)
    (hne : k' ≠ k) : lookupA (dictSet l k v) k' = lookupA l k' := by
  have hne2 : ¬ k = k' := fun h => hne h.symm
  induction l with
  | nil => simp [dictSet, lookupA, hne2]
  | cons p rest ih =>
    obtain ⟨k₀, w⟩ := p
    by_cases h : k₀ = k
    · subst h
      simp [dictSet, lookupA, hne2]
    · simp only [dictSet, if_neg h]
      by_cases h2 : k₀ = k'
      · simp [lookupA, h2]
      · simp [lookupA, h2, ih]

/-- Keys of an association list. -/
def keysA {β : Type} (l : List (String × β)) : List String := l.map Prod.fst

theorem keysA_dictSet {β : Type} (l : List (String × β)) (k : String) (v : β) :
    keysA (dictSet l k v) = if k ∈ keysA l then keysA l else keysA l ++ [k] := by
  induction l with
  | nil => simp [dictSet, keysA]
  | cons p rest ih =>
    obtain ⟨k₀, w⟩ := p
    by_cases h : k₀ = k
    · subst h
      simp [dictSet, keysA]
    · have h2 : ¬ k = k₀ := fun hh => h hh.symm
      simp only [dictSet, if_neg h, keysA, List.map_cons]
      simp only [keysA] at ih
      by_cases hm : k ∈ List.map Prod.fst rest
      · simp [hm, ih, List.mem_cons, h2]
      · simp [hm, ih, List.mem_cons, h2]

/-- nx.DiGraph together with the `node_attributes` side table
(`FileMakerGraph.__init__`): node list in insertion order, per-node
adjacency buckets holding the `relationship` edge attribute, and the
attribute dictionary per node id. -/
structure Store where
  nodes : List String
  succ : List (String × List (String × String))
  node_attributes : List (String × List (String × String))

def emptyStore : Store := ⟨[], [], []⟩

/-- nx `add_node`: a no-op when the node already exists. -/
def addNode (s : Store) (u : String) : Store :=
  if u ∈ s.nodes then s
  else { s with nodes := s.nodes ++ [u], succ := s.succ ++ [(u, [])] }

/-- Update node u's adjacency bucket with edge u→v carrying `relationship = rel`. -/
def succSet (l : List (String × List (String × String))) (u v rel : String) :
    List (String × List (String × String)) :=
  l.map (fun p => if p.1 = u then (p.1, dictSet p.2 v rel) else p)

/-- nx `add_edge u v relationship=rel`: ensure both endpoints exist, then
create the edge or overwrite its attribute if it is already present. -/
def add_edge (s : Store) (u v rel : String) : Store :=
  let s1 := addNode (addNode s u) v
  { s1 with succ := succSet s1.succ u v rel }

/-- `self.graph.neighbors u`: successors of u in adjacency insertion order. -/
def adjOf (s : Store) (u : String) : List String :=
  ((lookupA s.succ u).getD []).map Prod.fst

/-- `self.graph[u][v]['relationship']`, as an Option. -/
def edgeRel (s : Store) (u v : String) : Option String :=
  lookupA ((lookupA s.succ u).getD []) v

/-- Total number of directed edges in the store. -/
def edgeCount (s : Store) : Nat := (s.succ.map (fun p => p.2.length)).sum

/-- All directed edges of the store as (source, target) pairs. -/
def edgesList (s : Store) : List (String × String) :=
  s.succ.flatMap (fun p => p.2.map (fun q => (p.1, q.1)))

/-- A parsed XML element: tag, raw attributes, direct text and child elements. -/
inductive XElem where
  | mk (tag : String) (attrib : List (String × String)) (text : Option String)
       (children : List XElem)

def XElem.tag : XElem → String
  | .mk t _ _ _ => t

def XElem.attrib : XElem → List (String × String)
  | .mk _ a _ _ => a

def XElem.text : XElem → Option String
  | .mk _ _ x _ => x

def XElem.children : XElem → List XElem
  | .mk _ _ _ cs => cs

/-- `element.get('id')` combined with Python truthiness `if node_id:`:
the id attribute when present and non-empty. -/
def getId (e : XElem) : Option String :=
  match lookupA e.attrib "id" with
  | some s => if s = "" then none else some s
  | none => none

/-- Python's default `str.strip` whitespace set. -/
def isPySpace (c : Char) : Bool :=
  c = ' ' || c = '\t' || c = '\n' || c = '\r' || c = '\x0b' || c = '\x0c'

/-- Python `str.strip()`: remove leading and trailing whitespace. -/
def pyStrip (s : String) : String :=
  ⟨((s.data.dropWhile isPySpace).reverse.dropWhile isPySpace).reverse⟩

/-- The attribute record stored for a node: the element's raw attributes,
then `attrs['tag'] = element.tag` and
`attrs['text'] = element.text.strip() if element.text else ''`. -/
def mkAttrs (e : XElem) : List (String × String) :=
  dictSet (dictSet e.attrib "tag" e.tag) "text" (pyStrip (e.text.getD ""))

mutual
/-- `root.iter()`: the element followed by all descendants, document order. -/
def preorder1 : XElem → List XElem
  | .mk t a x cs => .mk t a x cs :: preorderL cs
def preorderL : List XElem → List XElem
  | [] => []
  | e :: rest => preorder1 e ++ preorderL rest
end

/-- First pass of `parse_xml`: register a node and its attribute record for
every element carrying a non-empty id. -/
def pass1Step (s : Store) (e : XElem) : Store :=
  match getId e with
  | none => s
  | some i =>
    let s2 := addNode s i
    { s2 with node_attributes := dictSet s2.node_attributes i (mkAttrs e) }

def pass1 (s : Store) (es : List XElem) : Store := es.foldl pass1Step s

/-- One parent-child id pair: `add_edge(parent, child, 'parent_of')` followed
by `add_edge(child, parent, 'child_of')`. -/
def edgePairStep (s : Store) (p : String × String) : Store :=
  add_edge (add_edge s p.1 p.2 "parent_of") p.2 p.1 "child_of"

/-- Second pass of `parse_xml`: for every identified element, link it to each
directly nested identified child in both directions. -/
def pass2Step (s : Store) (e : XElem) : Store :=
  match getId e with
  | none => s
  | some pid =>
    e.children.foldl
      (fun acc c =>
        match getId c with
        | none => acc
        | some cid => edgePairStep acc (pid, cid)) s

def pass2 (s : Store) (es : List XElem) : Store := es.foldl pass2Step s

/-- The directed parent-child id pairs contributed by one element. -/
def elemPairs (e : XElem) : List (String × String) :=
  match getId e with
  | none => []
  | some pid => e.children.filterMap (fun c => (getId c).map (fun cid => (pid, cid)))

/-- All directed parent-child id pairs of an element list. -/
def pairsP (es : List XElem) : List (String × String) := es.flatMap elemPairs

/-- The ids (non-empty) carried by the elements of a list, in order. -/
def idsP (es : List XElem) : List String := es.filterMap getId

/-- The error value raised by the module (`FileMakerGraphError`), carrying
its message. -/
structure GraphError where
  msg : String
deriving DecidableEq

/-- The exceptions that can escape the body of `parse_xml`. -/
inductive PyExc where
  | fmGraph (msg : String)
  | xmlSyntax (msg : String)
deriving DecidableEq

def excMsg : PyExc → String
  | .fmGraph m => m
  | .xmlSyntax m => m

/-- What the filesystem holds at the path handed to `parse_xml`. -/
inductive XmlFile where
  | missing
  | malformed (msg : String)
  | wellFormed (root : XElem)

/-- The `try` body of `parse_xml`: existence check (raising
`FileMakerGraphError` for a missing file), `etree.parse` (raising
`XMLSyntaxError` for malformed input), then the two build passes. -/
def parse_xml_body (path : String) (f : XmlFile) (s : Store) : Except PyExc Store :=
  match f with
  | .missing => .error (.fmGraph ("XML file not found: " ++ path))
  | .malformed m => .error (.xmlSyntax m)
  | .wellFormed root =>
    let es := preorder1 root
    .ok (pass2 (pass1 s es) es)

/-- `parse_xml` with its two `except` clauses: `XMLSyntaxError` is re-raised
as "Invalid XML file: …", and every other exception — including the
module's own missing-file `FileMakerGraphError` — is re-raised as
"Error parsing XML: …".  The second component is the store the caller
observes afterwards. -/
def parse_xml (path : String) (f : XmlFile) (s : Store) : Option GraphError × Store :=
  match parse_xml_body path f s with
  | .ok s2 => (none, s2)
  | .error (.xmlSyntax m) => (some ⟨"Invalid XML file: " ++ m⟩, s)
  | .error e => (some ⟨"Error parsing XML: " ++ excMsg e⟩, s)

/-- A BFS queue entry: (node, path, hops). -/
abbrev BEntry := String × List String × Nat

/-- The `while queue:` loop of `bfs_search`, with explicit fuel.  Each
iteration pops the front entry; entries beyond the hop limit are skipped,
already-visited nodes are skipped, and otherwise the node is recorded and
its not-yet-visited neighbors are enqueued one hop further. -/
def bfsAux (adj : String → List String) (maxHops : Nat) :
    Nat → List BEntry → List String → List (List String) → List (List String)
  | 0, _, _, paths => paths
  | _ + 1, [], _, paths => paths
  | fuel + 1, (node, path, hops) :: rest, visited, paths =>
    if maxHops < hops then bfsAux adj maxHops fuel rest visited paths
    else if node ∈ visited then bfsAux adj maxHops fuel rest visited paths
    else
      bfsAux adj maxHops fuel
        (rest ++ (adj node).filterMap (fun n =>
          if n ∈ node :: visited then none else some (n, path ++ [n], hops + 1)))
        (node :: visited) (paths ++ [path])

/-- Enough fuel to drain the queue: one pop for the initial entry plus, for
each node that can ever be expanded, one pop for itself and one per
neighbor it may enqueue. -/
def bfsFuel (s : Store) : Nat :=
  1 + (s.nodes.map (fun u => 1 + (adjOf s u).length)).sum

/-- `bfs_search(start_node, max_hops)`. -/
def bfs_search (s : Store) (start : String) (maxHops : Nat) :
    Except GraphError (List (List String)) :=
  if start ∈ s.nodes then
    .ok (bfsAux (adjOf s) maxHops (bfsFuel s) [(start, [start], 0)] [] [])
  else .error ⟨"Start node not found: " ++ start⟩

/-- The mutable state shared by the `dfs_recursive` closure. -/
structure DfsSt where
  visited : List String
  paths : List (List String)
deriving DecidableEq

/-- `dfs_recursive(node, path, hops)`: return at once past the hop limit or at
a visited node; otherwise record the node and walk its neighbors in order,
recursing into those still unvisited.  The fuel argument is always called
with `maxHops + 1 - hops`, so it runs out exactly when the hop guard fires. -/
def dfsRec (adj : String → List String) (maxHops : Nat) :
    Nat → String → List String → Nat → DfsSt → DfsSt
  | 0, _, _, _, st => st
  | fuel + 1, node, path, hops, st =>
    if maxHops < hops ∨ node ∈ st.visited then st
    else
      (adj node).foldl
        (fun acc n =>
          if n ∈ acc.visited then acc
          else dfsRec adj maxHops fuel n (path ++ [n]) (hops + 1) acc)
        ⟨node :: st.visited, st.paths ++ [path]⟩

/-- `dfs_search(start_node, max_hops)`. -/
def dfs_search (s : Store) (start : String) (maxHops : Nat) :
    Except GraphError (List (List String)) :=
  if start ∈ s.nodes then
    .ok (dfsRec (adjOf s) maxHops (maxHops + 1) start [start] 0 ⟨[], []⟩).paths
  else .error ⟨"Start node not found: " ++ start⟩

/-- The dictionary returned by `get_node_context`: the node's attribute
record plus its adjacent parents and children, each as (id, attributes). -/
structure NodeCtx where
  attributes : List (String × String)
  parents : List (String × List (String × String))
  children : List (String × List (String × String))
deriving DecidableEq

/-- The neighbor loop of `get_node_context`: `parent_of` edges contribute
children, `child_of` edges contribute parents; the neighbor's attribute
record is read with `self.node_attributes[neighbor]` (KeyError if absent). -/
def ctxLoop (s : Store) : List (String × String) → NodeCtx → Except GraphError NodeCtx
  | [], c => .ok c
  | (n, rel) :: rest, c =>
    if rel = "parent_of" then
      match lookupA s.node_attributes n with
      | none => .error ⟨"KeyError: " ++ n⟩
      | some a => ctxLoop s rest { c with children := c.children ++ [(n, a)] }
    else if rel = "child_of" then
      match lookupA s.node_attributes n with
      | none => .error ⟨"KeyError: " ++ n⟩
      | some a => ctxLoop s rest { c with parents := c.parents ++ [(n, a)] }
    else ctxLoop s rest c

/-- `get_node_context(node_id)`. -/
def get_node_context (s : Store) (nodeId : String) : Except GraphError NodeCtx :=
  match lookupA s.node_attributes nodeId with
  | none => .error ⟨"Node not found: " ++ nodeId⟩
  | some attrs => ctxLoop s ((lookupA s.succ nodeId).getD []) ⟨attrs, [], []⟩

/-- The dedup key of `format_context`: the string
`f"{tag}_{name}_{text}"` over `attrs.get(..., '')`. -/
def ctxKey (c : NodeCtx) : String :=
  ((lookupA c.attributes "tag").getD "") ++ "_" ++
    ((lookupA c.attributes "name").getD "") ++ "_" ++
    ((lookupA c.attributes "text").getD "")

/-- One output line of `format_context`: Type, then Name when the attribute
exists, Content when the text attribute exists and is non-empty, then
Parents/Children as comma-joined names (falling back to ids) when the
respective list is non-empty. -/
def renderCtx (c : NodeCtx) : String :=
  String.intercalate " | "
    (["Type: " ++ ((lookupA c.attributes "tag").getD "unknown")] ++
      (match lookupA c.attributes "name" with
       | some nm => ["Name: " ++ nm]
       | none => []) ++
      (match lookupA c.attributes "text" with
       | some t => if t = "" then [] else ["Content: " ++ t]
       | none => []) ++
      (if c.parents = [] then []
       else ["Parents: " ++ String.intercalate ", "
         (c.parents.map (fun p => (lookupA p.2 "name").getD p.1))]) ++
      (if c.children = [] then []
       else ["Children: " ++ String.intercalate ", "
         (c.children.map (fun p => (lookupA p.2 "name").getD p.1))]))

/-- The loop of `format_context`, threading the `seen` key set and the
accumulated formatted lines. -/
def fcLoop : List NodeCtx → List String → List String → List String
  | [], _, fmt => fmt
  | c :: rest, seen, fmt =>
    if ctxKey c ∈ seen then fcLoop rest seen fmt
    else fcLoop rest (ctxKey c :: seen) (fmt ++ [renderCtx c])

/-- `format_context(contexts)`: dedup by key, then newline-join the lines. -/
def format_context (cs : List NodeCtx) : String :=
  String.intercalate "\n" (fcLoop cs [] [])

/-- Nodes reachable from u in at most k hops of the adjacency `adj`
(shortest-path distance at most k). -/
def reachF (adj : String → List String) (u : String) : Nat → List String
  | 0 => [u]
  | k + 1 => u :: (adj u).flatMap (fun n => reachF adj n k)

/-- Shortest-path distance of w from u is exactly d. -/
def DistIs (adj : String → List String) (u w : String) (d : Nat) : Prop :=
  w ∈ reachF adj u d ∧ ∀ e < d, w ∉ reachF adj u e

theorem foldl_inv {α β : Type} (P : β → Prop) (f : β → α → β) :
    ∀ (l : List α) (b : β), P b → (∀ b2 a, a ∈ l → P b2 → P (f b2 a)) → P (l.foldl f b) := by
  intro l
  induction l with
  | nil => intro b hb _; simpa using hb
  | cons a rest ih =>
    intro b hb hstep
    simp only [List.foldl_cons]
    exact ih (f b a) (hstep b a (List.mem_cons_self a rest) hb)
      (fun b2 x hx => hstep b2 x (List.mem_cons_of_mem a hx))

theorem head?_append_left {α : Type} {l l' : List α} {a : α} (h : l.head? = some a) :
    (l ++ l').head? = some a := by
  cases l with
  | nil => simp at h
  | cons x xs => simpa using h

theorem reachF_self (adj : String → List String) (u : String) (k : Nat) :
    u ∈ reachF adj u k := by
  cases k with
  | zero => simp [reachF]
  | succ n => simp [reachF]

theorem reachF_cons_iff (adj : String → List String) (u w : String) (k : Nat) :
    w ∈ reachF adj u (k + 1) ↔ w = u ∨ ∃ n ∈ adj u, w ∈ reachF adj n k := by
  simp only [reachF, List.mem_cons, List.mem_flatMap]

theorem reachF_succ_of_mem (adj : String → List String) :
    ∀ (k : Nat) (u w : String), w ∈ reachF adj u k → w ∈ reachF adj u (k + 1) := by
  intro k
  induction k with
  | zero =>
    intro u w h
    simp [reachF] at h
    rw [reachF_cons_iff]
    exact Or.inl h
  | succ n ih =>
    intro u w h
    rw [reachF_cons_iff] at h
    rw [reachF_cons_iff]
    rcases h with h | ⟨n2, hn2, hw⟩
    · exact Or.inl h
    · exact Or.inr ⟨n2, hn2, ih n2 w hw⟩

theorem reachF_mono (adj : String → List String) (u : String) {a b : Nat} (h : a ≤ b) :
    ∀ w, w ∈ reachF adj u a → w ∈ reachF adj u b := by
  induction b with
  | zero =>
    intro w hw
    have : a = 0 := Nat.le_zero.mp h
    simpa [this] using hw
  | succ n ih =>
    intro w hw
    rcases Nat.le_succ_iff.mp h with h2 | h2
    · exact reachF_succ_of_mem adj n u w (ih h2 w hw)
    · simpa [h2] using hw

theorem reachF_step (adj : String → List String) :
    ∀ (k : Nat) (u w v : String), w ∈ reachF adj u k → v ∈ adj w →
      v ∈ reachF adj u (k + 1) := by
  intro k
  induction k with
  | zero =>
    intro u w v hw hv
    simp [reachF] at hw
    subst hw
    rw [reachF_cons_iff]
    exact Or.inr ⟨v, hv, reachF_self adj v 0⟩
  | succ n ih =>
    intro u w v hw hv
    rw [reachF_cons_iff] at hw
    rw [reachF_cons_iff]
    rcases hw with hw | ⟨n2, hn2, hw⟩
    · subst hw
      exact Or.inr ⟨v, hv, reachF_self adj v (n + 1)⟩
    · exact Or.inr ⟨n2, hn2, ih n2 w v hw hv⟩

theorem reachF_trans (adj : String → List String) :
    ∀ (b a : Nat) (u w z : String), w ∈ reachF adj u a → z ∈ reachF adj w b →
      z ∈ reachF adj u (a + b) := by
  intro b
  induction b with
  | zero =>
    intro a u w z hw hz
    simp [reachF] at hz
    subst hz
    exact hw
  | succ n ih =>
    intro a u w z hw hz
    rw [reachF_cons_iff] at hz
    rcases hz with hz | ⟨n2, hn2, hz⟩
    · subst hz
      exact reachF_mono adj u (Nat.le_add_right a (n + 1)) z hw
    · have hn3 : n2 ∈ reachF adj u (a + 1) := reachF_step adj a u w n2 hw hn2
      have h4 := ih (a + 1) u n2 z hn3 hz
      have harith : a + 1 + n = a + (n + 1) := by omega
      rw [harith] at h4
      exact h4

theorem reachF_decomp (adj : String → List String) (k : Nat) (u z : String)
    (h : z ∈ reachF adj u (k + 1)) : z = u ∨ ∃ n ∈ adj u, z ∈ reachF adj n k :=
  (reachF_cons_iff adj u z k).mp h

theorem distIs_exists (adj : String → List String) (u w : String) (k : Nat)
    (h : w ∈ reachF adj u k) : ∃ d, DistIs adj u w d ∧ d ≤ k := by
  have hex : ∃ n, w ∈ reachF adj u n := ⟨k, h⟩
  refine ⟨Nat.find hex, ⟨Nat.find_spec hex, ?_⟩, Nat.find_min' hex h⟩
  intro e he
  exact Nat.find_min hex he

theorem bfsAux_nil (adj : String → List String) (maxHops fuel : Nat)
    (visited : List String) (paths : List (List String)) :
    bfsAux adj maxHops fuel [] visited paths = paths := by
  cases fuel with
  | zero => rfl
  | succ n => rfl

theorem bfsAux_all_over (adj : String → List String) (maxHops : Nat) :
    ∀ (fuel : Nat) (queue : List BEntry) (visited : List String)
      (paths : List (List String)),
    (∀ e ∈ queue, maxHops < e.2.2) →
    bfsAux adj maxHops fuel queue visited paths = paths := by
  intro fuel
  induction fuel with
  | zero => intro queue visited paths _; rfl
  | succ n ih =>
    intro queue visited paths hq
    cases queue with
    | nil => rfl
    | cons e rest =>
      obtain ⟨node, path, hops⟩ := e
      have hh : maxHops < hops := hq (node, path, hops) (List.mem_cons_self _ _)
      simp only [bfsAux, if_pos hh]
      exact ih rest visited paths (fun e2 he2 => hq e2 (List.mem_cons_of_mem _ he2))

theorem bfsAux_paths_shape (adj : String → List String) (maxHops : Nat) (start : String) :
    ∀ (fuel : Nat) (queue : List BEntry) (visited : List String)
      (paths : List (List String)),
    (∀ e ∈ queue, e.2.1.head? = some start ∧ e.2.1.length = e.2.2 + 1) →
    (∀ p ∈ paths, p.head? = some start ∧ p.length ≤ maxHops + 1) →
    ∀ p ∈ bfsAux adj maxHops fuel queue visited paths,
      p.head? = some start ∧ p.length ≤ maxHops + 1 := by
  intro fuel
  induction fuel with
  | zero => intro queue visited paths _ hp; exact hp
  | succ n ih =>
    intro queue visited paths hq hp
    cases queue with
    | nil => exact hp
    | cons e rest =>
      obtain ⟨node, path, hops⟩ := e
      have hrest : ∀ e2 ∈ rest, e2.2.1.head? = some start ∧ e2.2.1.length = e2.2.2 + 1 :=
        fun e2 he2 => hq e2 (List.mem_cons_of_mem _ he2)
      by_cases hh : maxHops < hops
      · simp only [bfsAux, if_pos hh]
        exact ih rest visited paths hrest hp
      · simp only [bfsAux, if_neg hh]
        by_cases hv : node ∈ visited
        · simp only [if_pos hv]
          exact ih rest visited paths hrest hp
        · simp only [if_neg hv]
          have hhead : path.head? = some start :=
            (hq (node, path, hops) (List.mem_cons_self _ _)).1
          have hlen : path.length = hops + 1 :=
            (hq (node, path, hops) (List.mem_cons_self _ _)).2
          apply ih
          · intro e2 he2
            rcases List.mem_append.mp he2 with h2 | h2
            · exact hrest e2 h2
            · rcases List.mem_filterMap.mp h2 with ⟨a, _, ha2⟩
              by_cases hav : a ∈ node :: visited
              · simp [hav] at ha2
              · simp only [if_neg hav, Option.some.injEq] at ha2
                subst ha2
                constructor
                · exact head?_append_left hhead
                · simp [hlen]
          · intro p hpm
            rcases List.mem_append.mp hpm with h2 | h2
            · exact hp p h2
            · simp only [List.mem_singleton] at h2
              subst h2
              exact ⟨hhead, by omega⟩

theorem bfsAux_over_step (adj : String → List String) (maxHops fuel : Nat)
    (node : String) (path : List String) (hops : Nat) (rest : List BEntry)
    (visited : List String) (paths : List (List String)) (hh : maxHops < hops) :
    bfsAux adj maxHops (fuel + 1) ((node, path, hops) :: rest) visited paths =
      bfsAux adj maxHops fuel rest visited paths := by
  simp only [bfsAux, if_pos hh]

theorem bfsAux_vis_step (adj : String → List String) (maxHops fuel : Nat)
    (node : String) (path : List String) (hops : Nat) (rest : List BEntry)
    (visited : List String) (paths : List (List String))
    (hh : ¬ maxHops < hops) (hv : node ∈ visited) :
    bfsAux adj maxHops (fuel + 1) ((node, path, hops) :: rest) visited paths =
      bfsAux adj maxHops fuel rest visited paths := by
  simp only [bfsAux, if_neg hh, if_pos hv]

theorem bfsAux_visit_step (adj : String → List String) (maxHops fuel : Nat)
    (node : String) (path : List String) (hops : Nat) (rest : List BEntry)
    (visited : List String) (paths : List (List String))
    (hh : ¬ maxHops < hops) (hv : node ∉ visited) :
    bfsAux adj maxHops (fuel + 1) ((node, path, hops) :: rest) visited paths =
      bfsAux adj maxHops fuel
        (rest ++ (adj node).filterMap (fun n =>
          if n ∈ node :: visited then none else some (n, path ++ [n], hops + 1)))
        (node :: visited) (paths ++ [path]) := by
  simp only [bfsAux, if_neg hh, if_neg hv]

theorem bfs_search_zero (s : Store) (start : String) (hs : start ∈ s.nodes) :
    bfs_search s start 0 = .ok [[start]] := by
  simp only [bfs_search, if_pos hs]
  have h1 : bfsFuel s = (s.nodes.map (fun u => 1 + (adjOf s u).length)).sum + 1 := by
    simp [bfsFuel, Nat.add_comm]
  rw [h1]
  rw [bfsAux_visit_step (adjOf s) 0 _ start [start] 0 [] [] []
    (by omega) (List.not_mem_nil start)]
  rw [bfsAux_all_over]
  · simp
  · intro e he
    have he2 := (List.mem_append.mp he).resolve_left (List.not_mem_nil e)
    rcases List.mem_filterMap.mp he2 with ⟨a, _, ha⟩
    rcases ite_eq_iff.mp ha with ⟨_, hbad⟩ | ⟨_, hgood⟩
    · exact Option.noConfusion hbad
    · have h3 := Option.some.inj hgood
      subst h3
      simp

theorem bfs_newEntries_elim (nbrs : List String) (node : String) (visited : List String)
    (path : List String) (hops : Nat) (e : BEntry)
    (he : e ∈ nbrs.filterMap (fun n =>
      if n ∈ node :: visited then none else some (n, path ++ [n], hops + 1))) :
    ∃ n ∈ nbrs, n ∉ node :: visited ∧ e = (n, path ++ [n], hops + 1) := by
  rcases List.mem_filterMap.mp he with ⟨a, ha, ha2⟩
  rcases ite_eq_iff.mp ha2 with ⟨_, hbad⟩ | ⟨hc, hgood⟩
  · exact Option.noConfusion hbad
  · exact ⟨a, ha, hc, (Option.some.inj hgood).symm⟩

theorem bfs_newEntries_intro (nbrs : List String) (node : String) (visited : List String)
    (path : List String) (hops : Nat) (n : String)
    (hn : n ∈ nbrs) (hv : n ∉ node :: visited) :
    (n, path ++ [n], hops + 1) ∈ nbrs.filterMap (fun m =>
      if m ∈ node :: visited then none else some (m, path ++ [m], hops + 1)) := by
  exact List.mem_filterMap.mpr ⟨n, hn, by rw [if_neg hv]⟩

theorem dfsRec_stop (adj : String → List String) (maxHops fuel : Nat)
    (node : String) (path : List String) (hops : Nat) (st : DfsSt)
    (hcond : maxHops < hops ∨ node ∈ st.visited) :
    dfsRec adj maxHops (fuel + 1) node path hops st = st := by
  simp only [dfsRec, if_pos hcond]

theorem dfsRec_go (adj : String → List String) (maxHops fuel : Nat)
    (node : String) (path : List String) (hops : Nat) (st : DfsSt)
    (hcond : ¬ (maxHops < hops ∨ node ∈ st.visited)) :
    dfsRec adj maxHops (fuel + 1) node path hops st =
      (adj node).foldl
        (fun acc n =>
          if n ∈ acc.visited then acc
          else dfsRec adj maxHops fuel n (path ++ [n]) (hops + 1) acc)
        ⟨node :: st.visited, st.paths ++ [path]⟩ := by
  simp only [dfsRec, if_neg hcond]

theorem dfsRec_paths_sub (adj : String → List String) (maxHops : Nat) :
    ∀ (fuel : Nat) (node : String) (path : List String) (hops : Nat) (st : DfsSt)
      (p : List String), p ∈ st.paths →
      p ∈ (dfsRec adj maxHops fuel node path hops st).paths := by
  intro fuel
  induction fuel with
  | zero => intro _ _ _ st p hp; exact hp
  | succ n ih =>
    intro node path hops st p hp
    by_cases hcond : maxHops < hops ∨ node ∈ st.visited
    · rw [dfsRec_stop adj maxHops n node path hops st hcond]
      exact hp
    · rw [dfsRec_go adj maxHops n node path hops st hcond]
      refine foldl_inv (fun (acc : DfsSt) => p ∈ acc.paths) _ _ _ ?_ ?_
      · exact List.mem_append_left _ hp
      · intro acc a _ hacc
        by_cases hav : a ∈ acc.visited
        · simpa [hav] using hacc
        · simp only [if_neg hav]
          exact ih a (path ++ [a]) (hops + 1) acc p hacc

theorem dfsRec_paths_shape (adj : String → List String) (maxHops : Nat) (start : String) :
    ∀ (fuel : Nat) (node : String) (path : List String) (hops : Nat) (st : DfsSt),
    path.head? = some start → path.length = hops + 1 →
    (∀ p ∈ st.paths, p.head? = some start ∧ p.length ≤ maxHops + 1) →
    ∀ p ∈ (dfsRec adj maxHops fuel node path hops st).paths,
      p.head? = some start ∧ p.length ≤ maxHops + 1 := by
  intro fuel
  induction fuel with
  | zero => intro _ _ _ st _ _ hst p hp; exact hst p hp
  | succ n ih =>
    intro node path hops st hhead hlen hst p hp
    by_cases hcond : maxHops < hops ∨ node ∈ st.visited
    · rw [dfsRec_stop adj maxHops n node path hops st hcond] at hp
      exact hst p hp
    · rw [dfsRec_go adj maxHops n node path hops st hcond] at hp
      have hhop : ¬ maxHops < hops := fun h => hcond (Or.inl h)
      revert p hp
      refine foldl_inv (fun (acc : DfsSt) => ∀ p ∈ acc.paths,
        p.head? = some start ∧ p.length ≤ maxHops + 1) _ _ _ ?_ ?_
      · intro p hp
        rcases List.mem_append.mp hp with h2 | h2
        · exact hst p h2
        · simp only [List.mem_singleton] at h2
          subst h2
          exact ⟨hhead, by omega⟩
      · intro acc a _ hacc
        by_cases hav : a ∈ acc.visited
        · simpa [hav] using hacc
        · simp only [if_neg hav]
          exact ih a (path ++ [a]) (hops + 1) acc (head?_append_left hhead)
            (by simp [hlen]) hacc

theorem dfsRec_records_at_limit (adj : String → List String) (maxHops fuel : Nat)
    (node : String) (path : List String) (st : DfsSt) (hv : node ∉ st.visited) :
    path ∈ (dfsRec adj maxHops (fuel + 1) node path maxHops st).paths := by
  have hcond : ¬ (maxHops < maxHops ∨ node ∈ st.visited) := by
    intro h
    rcases h with h | h
    · exact Nat.lt_irrefl maxHops h
    · exact hv h
  rw [dfsRec_go adj maxHops fuel node path maxHops st hcond]
  refine foldl_inv (fun (acc : DfsSt) => path ∈ acc.paths) _ _ _ ?_ ?_
  · exact List.mem_append_right _ (List.mem_singleton.mpr rfl)
  · intro acc a _ hacc
    by_cases hav : a ∈ acc.visited
    · simpa [hav] using hacc
    · simp only [if_neg hav]
      exact dfsRec_paths_sub adj maxHops fuel a (path ++ [a]) (maxHops + 1) acc path hacc

def entryHops (e : BEntry) : Nat := e.2.2

/-- Invariant of one BFS queue entry (node, path, hops): the path runs from
`start` to the node, has hops+1 nodes, and witnesses reachability in hops
steps. -/
def BEinv (adj : String → List String) (start : String) (e : BEntry) : Prop :=
  e.2.1.head? = some start ∧ e.2.1.getLast? = some e.1 ∧
    e.2.1.length = e.2.2 + 1 ∧ e.1 ∈ reachF adj start e.2.2

/-- Queue hop counts are non-decreasing (FIFO breadth-first order). -/
def HopsSorted (queue : List BEntry) : Prop :=
  List.Sorted (· ≤ ·) (queue.map entryHops)

/-- Queue hop counts stay within one of the front entry's. -/
def HopsSpread (queue : List BEntry) : Prop :=
  ∀ e, queue.head? = some e → ∀ e2 ∈ queue, entryHops e2 ≤ entryHops e + 1

/-- Every visited node has been recorded as the endpoint of some path. -/
def VisRecorded (visited : List String) (paths : List (List String)) : Prop :=
  ∀ u ∈ visited, ∃ p ∈ paths, p.getLast? = some u

/-- Every visited node lies within the front entry's hop count of start. -/
def VisClose (adj : String → List String) (start : String)
    (queue : List BEntry) (visited : List String) : Prop :=
  ∀ e, queue.head? = some e → ∀ u ∈ visited, u ∈ reachF adj start (entryHops e)

/-- Witness that w is due to be recorded: either already visited, or some
pending entry lies on a shortest path from start to w within the hop
budget, carrying its exact distance as its hop count. -/
def CoverWitness (adj : String → List String) (start : String) (maxHops : Nat)
    (queue : List BEntry) (visited : List String) (w : String) : Prop :=
  w ∈ visited ∨ ∃ e ∈ queue, e.1 ∉ visited ∧ DistIs adj start e.1 (entryHops e) ∧
    ∃ d, DistIs adj e.1 w d ∧ DistIs adj start w (entryHops e + d) ∧
      entryHops e + d ≤ maxHops

/-- Termination potential of the BFS loop. -/
def bfsPhi (s : Store) (queue : List BEntry) (visited : List String) : Nat :=
  queue.length +
    ((s.nodes.filter (fun u => decide (u ∉ visited))).map
      (fun u => 1 + (adjOf s u).length)).sum

theorem phi_drop (f : String → Nat) :
    ∀ (l : List String) (visited : List String) (v : String),
    l.Nodup → v ∈ l → v ∉ visited →
    ((l.filter (fun u => decide (u ∉ v :: visited))).map f).sum + f v =
      ((l.filter (fun u => decide (u ∉ visited))).map f).sum := by
  intro l
  induction l with
  | nil => intro visited v _ hv _; simp at hv
  | cons a rest ih =>
    intro visited v hnd hv hnv
    rw [List.nodup_cons] at hnd
    rcases List.mem_cons.mp hv with rfl | hv2
    · have h1 : (v :: rest).filter (fun u => decide (u ∉ v :: visited)) =
          rest.filter (fun u => decide (u ∉ v :: visited)) := by
        simp [List.filter_cons]
      have h2 : rest.filter (fun u => decide (u ∉ v :: visited)) =
          rest.filter (fun u => decide (u ∉ visited)) := by
        apply List.filter_congr
        intro u hu
        have hne : ¬ u = v := fun h => hnd.1 (h ▸ hu)
        simp [List.mem_cons, hne]
      have h3 : (v :: rest).filter (fun u => decide (u ∉ visited)) =
          v :: rest.filter (fun u => decide (u ∉ visited)) := by
        simp [List.filter_cons, hnv]
      rw [h1, h2, h3]
      simp [Nat.add_comm]
    · have hav : ¬ a = v := fun h => hnd.1 (h ▸ hv2)
      have hrec := ih visited v hnd.2 hv2 hnv
      by_cases ha : a ∈ visited
      · have hx : decide (a ∉ v :: visited) = false := by
          simp [List.mem_cons, ha]
        have hy : decide (a ∉ visited) = false := by simp [ha]
        simp only [List.filter_cons, hx, hy, Bool.false_eq_true, if_false]
        exact hrec
      · have hx : decide (a ∉ v :: visited) = true := by
          simp [List.mem_cons, ha, hav]
        have hy : decide (a ∉ visited) = true := by simp [ha]
        simp only [List.filter_cons, hx, hy, if_true, List.map_cons, List.sum_cons]
        omega

theorem sorted_of_all_eq {l : List Nat} (c : Nat) (h : ∀ x ∈ l, x = c) :
    List.Sorted (· ≤ ·) l := by
  induction l with
  | nil => exact List.sorted_nil
  | cons a rest ih =>
    rw [List.sorted_cons]
    constructor
    · intro b hb
      rw [h a (List.mem_cons_self _ _), h b (List.mem_cons_of_mem _ hb)]
    · exact ih (fun x hx => h x (List.mem_cons_of_mem _ hx))

theorem mem_of_head?_eq {α : Type} {l : List α} {a : α} (h : l.head? = some a) :
    a ∈ l := by
  cases l with
  | nil => simp at h
  | cons x xs =>
    rw [List.head?_cons] at h
    rw [← Option.some.inj h]
    exact List.mem_cons_self x xs

theorem bfsAux_covers (s : Store) (start : String) (maxHops : Nat)
    (hnd : s.nodes.Nodup)
    (hcl : ∀ u ∈ s.nodes, ∀ v ∈ adjOf s u, v ∈ s.nodes) :
    ∀ (fuel : Nat) (queue : List BEntry) (visited : List String)
      (paths : List (List String)),
    bfsPhi s queue visited ≤ fuel →
    (∀ e ∈ queue, BEinv (adjOf s) start e) →
    (∀ e ∈ queue, e.1 ∈ s.nodes) →
    HopsSorted queue → HopsSpread queue →
    VisRecorded visited paths →
    VisClose (adjOf s) start queue visited →
    ∀ w, CoverWitness (adjOf s) start maxHops queue visited w →
    ∃ p ∈ bfsAux (adjOf s) maxHops fuel queue visited paths,
      p.getLast? = some w := by
  intro fuel
  induction fuel with
  | zero =>
    intro queue visited paths hphi _ _ _ _ hrec _ w hw
    have hq : queue = [] := by
      cases queue with
      | nil => rfl
      | cons e rest => simp [bfsPhi] at hphi
    subst hq
    rcases hw with hw | ⟨e, he, _⟩
    · simpa [bfsAux] using hrec w hw
    · simp at he
  | succ fuel ih =>
    intro queue visited paths hphi hinv hnodes hsort hspread hrec hclose w hw
    cases queue with
    | nil =>
      rw [bfsAux_nil]
      rcases hw with hw | ⟨e, he, _⟩
      · exact hrec w hw
      · simp at he
    | cons ehead rest =>
      obtain ⟨node, path, hops⟩ := ehead
      have hinv_head : BEinv (adjOf s) start (node, path, hops) :=
        hinv _ (List.mem_cons_self _ _)
      have hinv_rest : ∀ e ∈ rest, BEinv (adjOf s) start e :=
        fun e he => hinv e (List.mem_cons_of_mem _ he)
      have hnodes_rest : ∀ e ∈ rest, e.1 ∈ s.nodes :=
        fun e he => hnodes e (List.mem_cons_of_mem _ he)
      have hsort2 := hsort
      rw [HopsSorted, List.map_cons, List.sorted_cons] at hsort2
      have hle_rest : ∀ e2 ∈ rest, hops ≤ entryHops e2 := by
        intro e2 he2
        exact hsort2.1 (entryHops e2) (List.mem_map_of_mem entryHops he2)
      have hsort_rest : HopsSorted rest := hsort2.2
      have hspread_all : ∀ e2 ∈ (node, path, hops) :: rest,
          entryHops e2 ≤ hops + 1 :=
        hspread (node, path, hops) rfl
      have hspread_rest : HopsSpread rest := by
        intro e heq e2 he2
        have h1 : hops ≤ entryHops e := hle_rest e (mem_of_head?_eq heq)
        have h2 : entryHops e2 ≤ hops + 1 :=
          hspread_all e2 (List.mem_cons_of_mem _ he2)
        omega
      have hclose_rest : VisClose (adjOf s) start rest visited := by
        intro e heq u hu
        have h1 : hops ≤ entryHops e := hle_rest e (mem_of_head?_eq heq)
        exact reachF_mono (adjOf s) start h1 u (hclose (node, path, hops) rfl u hu)
      have hphi_rest : bfsPhi s rest visited ≤ fuel := by
        simp only [bfsPhi, List.length_cons] at hphi ⊢
        omega
      by_cases hh : maxHops < hops
      · rw [bfsAux_over_step _ _ _ _ _ _ _ _ _ hh]
        apply ih rest visited paths hphi_rest hinv_rest hnodes_rest hsort_rest
          hspread_rest hrec hclose_rest
        rcases hw with hw | ⟨e, he, henv, hedist, d, hd1, hd2, hdle⟩
        · exact Or.inl hw
        · rcases List.mem_cons.mp he with rfl | he2
          · exfalso
            simp only [entryHops] at hdle
            omega
          · exact Or.inr ⟨e, he2, henv, hedist, d, hd1, hd2, hdle⟩
      · by_cases hv : node ∈ visited
        · rw [bfsAux_vis_step _ _ _ _ _ _ _ _ _ hh hv]
          apply ih rest visited paths hphi_rest hinv_rest hnodes_rest hsort_rest
            hspread_rest hrec hclose_rest
          rcases hw with hw | ⟨e, he, henv, hedist, d, hd1, hd2, hdle⟩
          · exact Or.inl hw
          · rcases List.mem_cons.mp he with rfl | he2
            · exact absurd hv henv
            · exact Or.inr ⟨e, he2, henv, hedist, d, hd1, hd2, hdle⟩
        · rw [bfsAux_visit_step _ _ _ _ _ _ _ _ _ hh hv]
          have hnode_mem : node ∈ s.nodes := hnodes _ (List.mem_cons_self _ _)
          have hhead_start : path.head? = some start := hinv_head.1
          have hlast_node : path.getLast? = some node := hinv_head.2.1
          have hlen_path : path.length = hops + 1 := hinv_head.2.2.1
          have hreach_node : node ∈ reachF (adjOf s) start hops := hinv_head.2.2.2
          have hnews_elim := bfs_newEntries_elim (adjOf s node) node visited path hops
          -- new entry facts
          have hnews_inv : ∀ e ∈ (adjOf s node).filterMap (fun n =>
              if n ∈ node :: visited then none
              else some (n, path ++ [n], hops + 1)),
              BEinv (adjOf s) start e ∧ e.1 ∈ s.nodes ∧ entryHops e = hops + 1 := by
            intro e he
            rcases hnews_elim e he with ⟨n, hn, hnv2, rfl⟩
            refine ⟨⟨head?_append_left hhead_start, List.getLast?_concat path, ?_, ?_⟩,
              hcl node hnode_mem n hn, rfl⟩
            · simp [hlen_path]
            · exact reachF_step (adjOf s) hops start node n hreach_node hn
          apply ih
          -- phi
          · have hdrop0 := phi_drop (fun u => 1 + (adjOf s u).length) s.nodes visited
              node hnd hnode_mem hv
            have hdrop : ((s.nodes.filter (fun u => decide (u ∉ node :: visited))).map
                (fun u => 1 + (adjOf s u).length)).sum + (1 + (adjOf s node).length) =
                ((s.nodes.filter (fun u => decide (u ∉ visited))).map
                (fun u => 1 + (adjOf s u).length)).sum := hdrop0
            have hlen2 : ((adjOf s node).filterMap (fun n =>
                if n ∈ node :: visited then none
                else some (n, path ++ [n], hops + 1))).length ≤
                (adjOf s node).length := List.length_filterMap_le _ _
            simp only [bfsPhi, List.length_append, List.length_cons] at hphi ⊢
            omega
          -- entry invariants
          · intro e he
            rcases List.mem_append.mp he with he2 | he2
            · exact hinv_rest e he2
            · exact (hnews_inv e he2).1
          -- nodes
          · intro e he
            rcases List.mem_append.mp he with he2 | he2
            · exact hnodes_rest e he2
            · exact (hnews_inv e he2).2.1
          -- sorted
          · rw [HopsSorted, List.map_append]
            apply List.pairwise_append.mpr
            refine ⟨hsort_rest, ?_, ?_⟩
            · apply sorted_of_all_eq (hops + 1)
              intro x hx
              rcases List.mem_map.mp hx with ⟨e, he, rfl⟩
              exact (hnews_inv e he).2.2
            · intro x hx y hy
              rcases List.mem_map.mp hx with ⟨e, he, rfl⟩
              rcases List.mem_map.mp hy with ⟨e2, he2, rfl⟩
              have h1 : entryHops e ≤ hops + 1 :=
                hspread_all e (List.mem_cons_of_mem _ he)
              have h2 : entryHops e2 = hops + 1 := (hnews_inv e2 he2).2.2
              omega
          -- spread
          · intro e heq e2 he2
            have hge : hops ≤ entryHops e := by
              cases rest with
              | nil =>
                have := mem_of_head?_eq heq
                have h3 : entryHops e = hops + 1 := (hnews_inv e (by simpa using this)).2.2
                omega
              | cons r rrest =>
                have heq2 : r = e := by simpa using heq
                rw [← heq2]
                exact hle_rest r (List.mem_cons_self _ _)
            have hle2 : entryHops e2 ≤ hops + 1 := by
              rcases List.mem_append.mp he2 with h2 | h2
              · exact hspread_all e2 (List.mem_cons_of_mem _ h2)
              · exact Nat.le_of_eq (hnews_inv e2 h2).2.2
            omega
          -- recorded
          · intro u hu
            rcases List.mem_cons.mp hu with rfl | hu2
            · exact ⟨path, List.mem_append_right _ (List.mem_singleton.mpr rfl),
                hlast_node⟩
            · rcases hrec u hu2 with ⟨p, hp, hpl⟩
              exact ⟨p, List.mem_append_left _ hp, hpl⟩
          -- close
          · intro e heq u hu
            have hge : hops ≤ entryHops e := by
              cases rest with
              | nil =>
                have := mem_of_head?_eq heq
                have h3 : entryHops e = hops + 1 := (hnews_inv e (by simpa using this)).2.2
                omega
              | cons r rrest =>
                have heq2 : r = e := by simpa using heq
                rw [← heq2]
                exact hle_rest r (List.mem_cons_self _ _)
            rcases List.mem_cons.mp hu with rfl | hu2
            · exact reachF_mono (adjOf s) start hge u hreach_node
            · exact reachF_mono (adjOf s) start hge u
                (hclose (node, path, hops) rfl u hu2)
          -- cover witness transfer
          · rcases hw with hw | ⟨e, he, henv, hedist, d, hd1, hd2, hdle⟩
            · exact Or.inl (List.mem_cons_of_mem _ hw)
            · by_cases heq : e.1 = node
              · -- the pending witness is the node being expanded: repair it
                rw [heq] at hedist hd1
                have hEq : entryHops e = hops := by
                  have h1 : hops ≤ entryHops e := by
                    rcases List.mem_cons.mp he with rfl | he2
                    · rfl
                    · exact hle_rest e he2
                  have h2 : ¬ hops < entryHops e := by
                    intro hlt
                    exact hedist.2 hops hlt hreach_node
                  omega
                rw [hEq] at hd2 hdle
                cases d with
                | zero =>
                  have hw0 : w ∈ reachF (adjOf s) node 0 := hd1.1
                  simp [reachF] at hw0
                  subst hw0
                  exact Or.inl (List.mem_cons_self _ _)
                | succ d2 =>
                  rcases reachF_decomp (adjOf s) d2 node w hd1.1 with rfl | ⟨n, hn, hwn⟩
                  · exact absurd (reachF_self (adjOf s) w 0) (hd1.2 0 (by omega))
                  · have hreach_n : n ∈ reachF (adjOf s) start (hops + 1) :=
                      reachF_step (adjOf s) hops start node n hreach_node hn
                    have harith1 : hops + (d2 + 1) = hops + 1 + d2 := by omega
                    rw [harith1] at hd2 hdle
                    have hmin_n : ∀ a, n ∈ reachF (adjOf s) start a → hops + 1 ≤ a := by
                      intro a ha
                      by_contra hlt
                      push_neg at hlt
                      have hw2 : w ∈ reachF (adjOf s) start (a + d2) :=
                        reachF_trans (adjOf s) d2 a start n w ha hwn
                      exact hd2.2 (a + d2) (by omega) hw2
                    have hdist_n : DistIs (adjOf s) start n (hops + 1) :=
                      ⟨hreach_n, fun a ha hmem => by
                        have := hmin_n a hmem
                        omega⟩
                    have hdist_nw : DistIs (adjOf s) n w d2 :=
                      ⟨hwn, fun a ha hmem => by
                        have hw2 : w ∈ reachF (adjOf s) start (hops + 1 + a) :=
                          reachF_trans (adjOf s) a (hops + 1) start n w hreach_n hmem
                        exact hd2.2 (hops + 1 + a) (by omega) hw2⟩
                    have hn_ne : ¬ n = node := by
                      intro hcontra
                      subst hcontra
                      exact hdist_n.2 hops (by omega) hreach_node
                    have hn_nvis : n ∉ visited := by
                      intro hcontra
                      exact hdist_n.2 hops (by omega)
                        (hclose (node, path, hops) rfl n hcontra)
                    have hn_nvis2 : n ∉ node :: visited := by
                      intro hcontra
                      rcases List.mem_cons.mp hcontra with h3 | h3
                      · exact hn_ne h3
                      · exact hn_nvis h3
                    refine Or.inr ⟨(n, path ++ [n], hops + 1),
                      List.mem_append_right _
                        (bfs_newEntries_intro (adjOf s node) node visited path hops n
                          hn hn_nvis2),
                      hn_nvis2, hdist_n, d2, hdist_nw, hd2, hdle⟩
              · have he2 : e ∈ rest := by
                  rcases List.mem_cons.mp he with rfl | h3
                  · exact absurd rfl heq
                  · exact h3
                have henv2 : e.1 ∉ node :: visited := by
                  intro hcontra
                  rcases List.mem_cons.mp hcontra with h3 | h3
                  · exact heq h3
                  · exact henv h3
                exact Or.inr ⟨e, List.mem_append_left _ he2, henv2, hedist,
                  d, hd1, hd2, hdle⟩

theorem bfs_search_covers (s : Store) (start : String) (maxHops : Nat)
    (hnd : s.nodes.Nodup)
    (hcl : ∀ u ∈ s.nodes, ∀ v ∈ adjOf s u, v ∈ s.nodes)
    (hs : start ∈ s.nodes) :
    ∃ R, bfs_search s start maxHops = .ok R ∧
      (∀ p ∈ R, p.head? = some start ∧ p.length ≤ maxHops + 1) ∧
      ∀ w ∈ reachF (adjOf s) start maxHops, ∃ p ∈ R, p.getLast? = some w := by
  refine ⟨bfsAux (adjOf s) maxHops (bfsFuel s) [(start, [start], 0)] [] [],
    by simp [bfs_search, if_pos hs], ?_, ?_⟩
  · apply bfsAux_paths_shape (adjOf s) maxHops start (bfsFuel s)
      [(start, [start], 0)] [] []
    · intro e he
      simp only [List.mem_singleton] at he
      subst he
      exact ⟨rfl, rfl⟩
    · intro p hp
      simp at hp
  · intro w hw
    apply bfsAux_covers s start maxHops hnd hcl (bfsFuel s)
      [(start, [start], 0)] [] []
    · apply Nat.le_of_eq
      simp [bfsPhi, bfsFuel]
    · intro e he
      simp only [List.mem_singleton] at he
      subst he
      exact ⟨rfl, rfl, rfl, reachF_self (adjOf s) start 0⟩
    · intro e he
      simp only [List.mem_singleton] at he
      subst he
      exact hs
    · simp [HopsSorted]
    · intro e heq e2 he2
      simp only [List.head?_cons] at heq
      simp only [List.mem_singleton] at he2
      subst he2
      rw [← Option.some.inj heq]
      omega
    · intro u hu
      simp at hu
    · intro e _ u hu
      simp at hu
    · rcases distIs_exists (adjOf s) start w maxHops hw with ⟨d, hdist, hdle⟩
      refine Or.inr ⟨(start, [start], 0), List.mem_cons_self _ _,
        List.not_mem_nil start,
        ⟨reachF_self (adjOf s) start 0, fun e he => absurd he (Nat.not_lt_zero e)⟩,
        d, hdist, ?_, ?_⟩
      · show DistIs (adjOf s) start w (0 + d)
        rw [Nat.zero_add]
        exact hdist
      · show 0 + d ≤ maxHops
        omega

theorem dfs_search_shape (s : Store) (start : String) (maxHops : Nat)
    (hs : start ∈ s.nodes) :
    ∃ R, dfs_search s start maxHops = .ok R ∧
      ∀ p ∈ R, p.head? = some start ∧ p.length ≤ maxHops + 1 := by
  refine ⟨(dfsRec (adjOf s) maxHops (maxHops + 1) start [start] 0 ⟨[], []⟩).paths,
    by simp [dfs_search, if_pos hs], ?_⟩
  apply dfsRec_paths_shape (adjOf s) maxHops start (maxHops + 1) start [start] 0
    ⟨[], []⟩ rfl rfl
  intro p hp
  simp at hp

/-- Store well-formedness maintained by every operation: the adjacency table
is keyed exactly by the node list, which has no duplicates. -/
def WFStore (s : Store) : Prop :=
  s.succ.map Prod.fst = s.nodes ∧ s.nodes.Nodup

theorem wf_emptyStore : WFStore emptyStore := ⟨rfl, List.nodup_nil⟩

theorem addNode_nodes (s : Store) (u : String) :
    (addNode s u).nodes = if u ∈ s.nodes then s.nodes else s.nodes ++ [u] := by
  by_cases h : u ∈ s.nodes <;> simp [addNode, h]

theorem mem_addNode_nodes (s : Store) (u v : String) :
    v ∈ (addNode s u).nodes ↔ v ∈ s.nodes ∨ v = u := by
  rw [addNode_nodes]
  by_cases h : u ∈ s.nodes
  · simp only [if_pos h]
    constructor
    · exact Or.inl
    · intro h2
      rcases h2 with h2 | rfl
      · exact h2
      · exact h
  · simp [if_neg h, List.mem_append]

theorem addNode_attrs (s : Store) (u : String) :
    (addNode s u).node_attributes = s.node_attributes := by
  by_cases h : u ∈ s.nodes <;> simp [addNode, h]

theorem wf_addNode (s : Store) (u : String) (hwf : WFStore s) :
    WFStore (addNode s u) := by
  by_cases h : u ∈ s.nodes
  · simpa [addNode, h] using hwf
  · refine ⟨?_, ?_⟩
    · simp [addNode, h, hwf.1]
    · simp only [addNode, if_neg h]
      exact List.Nodup.append hwf.2 (List.nodup_singleton u)
        (by simpa [List.disjoint_singleton] using h)

theorem lookupA_append_right {β : Type} (l l' : List (String × β)) (k : String)
    (h : lookupA l k = none) : lookupA (l ++ l') k = lookupA l' k := by
  induction l with
  | nil => simp
  | cons p rest ih =>
    obtain ⟨k0, v0⟩ := p
    by_cases h2 : k0 = k
    · simp [lookupA, h2] at h
    · simp only [lookupA, h2, List.cons_append, if_neg h2] at h ⊢
      exact ih h

theorem lookupA_append_left {β : Type} (l l' : List (String × β)) (k : String) (b : β)
    (h : lookupA l k = some b) : lookupA (l ++ l') k = some b := by
  induction l with
  | nil => simp [lookupA] at h
  | cons p rest ih =>
    obtain ⟨k0, v0⟩ := p
    by_cases h2 : k0 = k
    · simp only [lookupA, if_pos h2] at h
      simp [lookupA, h2, h]
    · simp only [lookupA, if_neg h2, List.cons_append] at h ⊢
      exact ih h

theorem lookupA_none_iff {β : Type} (l : List (String × β)) (k : String) :
    lookupA l k = none ↔ k ∉ l.map Prod.fst := by
  induction l with
  | nil => simp [lookupA]
  | cons p rest ih =>
    obtain ⟨k0, v0⟩ := p
    by_cases h2 : k0 = k
    · simp [lookupA, h2]
    · simp only [lookupA, if_neg h2, List.map_cons, List.mem_cons, ih]
      constructor
      · intro h3 h4
        rcases h4 with h4 | h4
        · exact h2 h4.symm
        · exact h3 h4
      · intro h3 h4
        exact h3 (Or.inr h4)

theorem addNode_lookupA_succ (s : Store) (u x : String) (hwf : WFStore s) :
    lookupA (addNode s u).succ x =
      if x = u ∧ u ∉ s.nodes then some [] else lookupA s.succ x := by
  by_cases h : u ∈ s.nodes
  · simp only [addNode, if_pos h]
    have : ¬ (x = u ∧ u ∉ s.nodes) := fun h2 => h2.2 h
    rw [if_neg this]
  · simp only [addNode, if_neg h]
    by_cases h2 : x = u
    · subst h2
      have hn : lookupA s.succ x = none := by
        rw [lookupA_none_iff, hwf.1]
        exact h
      rw [lookupA_append_right _ _ _ hn]
      simp [lookupA, h]
    · have : ¬ (x = u ∧ u ∉ s.nodes) := fun h3 => h2 h3.1
      rw [if_neg this]
      cases hl : lookupA s.succ x with
      | none =>
        rw [lookupA_append_right _ _ _ hl]
        have h4 : ¬ u = x := fun h3 => h2 h3.symm
        simp [lookupA, h4]
      | some b => exact lookupA_append_left _ _ _ _ hl

theorem edgeRel_addNode (s : Store) (u x y : String) (hwf : WFStore s) :
    edgeRel (addNode s u) x y = edgeRel s x y := by
  unfold edgeRel
  rw [addNode_lookupA_succ s u x hwf]
  by_cases h : x = u ∧ u ∉ s.nodes
  · rw [if_pos h]
    have hn : lookupA s.succ x = none := by
      rw [lookupA_none_iff, hwf.1]
      rw [h.1]
      exact h.2
    rw [hn]
    rfl
  · rw [if_neg h]

theorem succSet_keys (l : List (String × List (String × String))) (u v rel : String) :
    (succSet l u v rel).map Prod.fst = l.map Prod.fst := by
  unfold succSet
  rw [List.map_map]
  apply List.map_congr_left
  intro p _
  by_cases h : p.1 = u <;> simp [h]

theorem wf_add_edge (s : Store) (u v rel : String) (hwf : WFStore s) :
    WFStore (add_edge s u v rel) := by
  have hwf1 : WFStore (addNode (addNode s u) v) := wf_addNode _ v (wf_addNode s u hwf)
  exact ⟨by rw [add_edge, succSet_keys]; exact hwf1.1, hwf1.2⟩

theorem add_edge_nodes_mem (s : Store) (u v rel x : String) :
    x ∈ (add_edge s u v rel).nodes ↔ x ∈ s.nodes ∨ x = u ∨ x = v := by
  show x ∈ (addNode (addNode s u) v).nodes ↔ _
  rw [mem_addNode_nodes, mem_addNode_nodes]
  tauto

theorem add_edge_nodes_of_mem (s : Store) (u v rel : String)
    (hu : u ∈ s.nodes) (hv : v ∈ s.nodes) :
    (add_edge s u v rel).nodes = s.nodes := by
  have h1 : addNode s u = s := by simp [addNode, hu]
  show (addNode (addNode s u) v).nodes = s.nodes
  rw [h1]
  simp [addNode, hv]

theorem add_edge_attrs (s : Store) (u v rel : String) :
    (add_edge s u v rel).node_attributes = s.node_attributes := by
  show (addNode (addNode s u) v).node_attributes = _
  rw [addNode_attrs, addNode_attrs]

theorem succSet_cons (k0 : String) (b0 : List (String × String))
    (rest : List (String × List (String × String))) (u v rel : String) :
    succSet ((k0, b0) :: rest) u v rel =
      (if k0 = u then (k0, dictSet b0 v rel) else (k0, b0)) :: succSet rest u v rel := by
  simp only [succSet, List.map_cons]

theorem lookupA_succSet (l : List (String × List (String × String)))
    (u v rel x : String) :
    lookupA (succSet l u v rel) x =
      if x = u then (lookupA l u).map (fun b => dictSet b v rel)
      else lookupA l x := by
  induction l with
  | nil =>
    by_cases h : x = u <;> simp [succSet, lookupA, h]
  | cons p rest ih =>
    obtain ⟨k0, b0⟩ := p
    rw [succSet_cons]
    by_cases hk : k0 = u
    · subst hk
      rw [if_pos rfl]
      by_cases hx : x = k0
      · subst hx
        simp [lookupA]
      · have hx2 : ¬ k0 = x := fun h => hx h.symm
        simp [lookupA, hx2, hx, ih]
    · rw [if_neg hk]
      by_cases hx : x = k0
      · subst hx
        have hxu : ¬ x = u := hk
        simp [lookupA, hxu]
      · have hx2 : ¬ k0 = x := fun h => hx h.symm
        simp only [lookupA, if_neg hx2]
        rw [ih]
        by_cases hxu : x = u
        · subst hxu
          simp [lookupA, hk]
        · simp [hxu]

theorem lookupA_some_of_mem_keys {β : Type} (l : List (String × β)) (k : String)
    (h : k ∈ l.map Prod.fst) : ∃ b, lookupA l k = some b := by
  cases hl : lookupA l k with
  | none => exact absurd h ((lookupA_none_iff l k).mp hl)
  | some b => exact ⟨b, rfl⟩

theorem edgeRel_add_edge (s : Store) (u v rel x y : String) (hwf : WFStore s) :
    edgeRel (add_edge s u v rel) x y =
      if x = u ∧ y = v then some rel else edgeRel s x y := by
  have hwf1 : WFStore (addNode s u) := wf_addNode s u hwf
  have hwf2 : WFStore (addNode (addNode s u) v) := wf_addNode _ v hwf1
  have hrel1 : edgeRel (addNode (addNode s u) v) x y = edgeRel s x y := by
    rw [edgeRel_addNode _ v x y hwf1, edgeRel_addNode s u x y hwf]
  have hrelu : ∀ y2, edgeRel (addNode (addNode s u) v) u y2 = edgeRel s u y2 := by
    intro y2
    rw [edgeRel_addNode _ v u y2 hwf1, edgeRel_addNode s u u y2 hwf]
  have humem : u ∈ (addNode (addNode s u) v).nodes := by
    rw [mem_addNode_nodes, mem_addNode_nodes]
    tauto
  show lookupA ((lookupA (succSet (addNode (addNode s u) v).succ u v rel) x).getD []) y
      = _
  rw [lookupA_succSet]
  by_cases hx : x = u
  · rw [if_pos hx]
    rcases lookupA_some_of_mem_keys (addNode (addNode s u) v).succ u
      (by rw [hwf2.1]; exact humem) with ⟨b, hb⟩
    rw [hb]
    show lookupA (dictSet b v rel) y = _
    by_cases hy : y = v
    · rw [if_pos ⟨hx, hy⟩, hy]
      exact lookupA_dictSet_self b v rel
    · have hcond : ¬ (x = u ∧ y = v) := fun h => hy h.2
      rw [if_neg hcond, lookupA_dictSet_other b v y rel hy, hx, ← hrelu y]
      show lookupA b y = lookupA ((lookupA (addNode (addNode s u) v).succ u).getD []) y
      rw [hb]
      rfl
  · have hcond : ¬ (x = u ∧ y = v) := fun h => hx h.1
    rw [if_neg hx, if_neg hcond, ← hrel1]
    rfl

theorem dictSet_length {β : Type} (l : List (String × β)) (k : String) (v : β) :
    (dictSet l k v).length =
      match lookupA l k with
      | none => l.length + 1
      | some _ => l.length := by
  induction l with
  | nil => simp [dictSet, lookupA]
  | cons p rest ih =>
    obtain ⟨k0, v0⟩ := p
    by_cases h : k0 = k
    · simp [dictSet, lookupA, h]
    · simp only [dictSet, if_neg h, lookupA, List.length_cons, ih]
      cases lookupA rest k <;> simp

theorem edgeCount_addNode (s : Store) (u : String) :
    edgeCount (addNode s u) = edgeCount s := by
  by_cases h : u ∈ s.nodes <;> simp [addNode, h, edgeCount]

theorem succSet_id (l : List (String × List (String × String))) (u v rel : String)
    (h : u ∉ l.map Prod.fst) : succSet l u v rel = l := by
  induction l with
  | nil => rfl
  | cons p rest ih =>
    obtain ⟨k0, b0⟩ := p
    simp only [List.map_cons, List.mem_cons] at h
    push_neg at h
    rw [succSet_cons, if_neg (fun h2 => h.1 h2.symm), ih h.2]

theorem edgeCount_succSet (l : List (String × List (String × String)))
    (u v rel : String) (hnd : (l.map Prod.fst).Nodup) :
    ((succSet l u v rel).map (fun p => p.2.length)).sum =
      (l.map (fun p => p.2.length)).sum +
        (match lookupA l u with
         | none => 0
         | some b => if lookupA b v = none then 1 else 0) := by
  induction l with
  | nil => simp [succSet, lookupA]
  | cons p rest ih =>
    obtain ⟨k0, b0⟩ := p
    simp only [List.map_cons, List.nodup_cons] at hnd
    rw [succSet_cons]
    by_cases hk : k0 = u
    · subst hk
      rw [if_pos rfl, succSet_id rest k0 v rel hnd.1]
      simp only [List.map_cons, List.sum_cons, lookupA, if_pos rfl]
      rw [dictSet_length]
      cases hlv : lookupA b0 v
      · simp [hlv]
        exact Nat.add_right_comm b0.length 1 _
      · simp [hlv]
    · rw [if_neg hk]
      simp only [List.map_cons, List.sum_cons, lookupA, if_neg hk, ih hnd.2]
      omega

theorem edgeCount_add_edge (s : Store) (u v rel : String) (hwf : WFStore s) :
    edgeCount (add_edge s u v rel) =
      edgeCount s + (if edgeRel s u v = none then 1 else 0) := by
  have hwf1 : WFStore (addNode s u) := wf_addNode s u hwf
  have hwf2 : WFStore (addNode (addNode s u) v) := wf_addNode _ v hwf1
  have humem : u ∈ (addNode (addNode s u) v).nodes := by
    rw [mem_addNode_nodes, mem_addNode_nodes]
    tauto
  rcases lookupA_some_of_mem_keys (addNode (addNode s u) v).succ u
    (by rw [hwf2.1]; exact humem) with ⟨b, hb⟩
  have hrelu : edgeRel (addNode (addNode s u) v) u v = edgeRel s u v := by
    rw [edgeRel_addNode _ v u v hwf1, edgeRel_addNode s u u v hwf]
  have hcount : edgeCount (addNode (addNode s u) v) = edgeCount s := by
    rw [edgeCount_addNode, edgeCount_addNode]
  show ((succSet (addNode (addNode s u) v).succ u v rel).map
    (fun p => p.2.length)).sum = _
  rw [edgeCount_succSet _ u v rel (by rw [hwf2.1]; exact hwf2.2), hb]
  have hrel2 : edgeRel (addNode (addNode s u) v) u v = lookupA b v := by
    show lookupA ((lookupA (addNode (addNode s u) v).succ u).getD []) v = _
    rw [hb]
    rfl
  rw [← hcount]
  show edgeCount (addNode (addNode s u) v) + _ =
    edgeCount (addNode (addNode s u) v) + _
  rw [← hrelu, hrel2]

theorem getLast?_cons_some {α : Type} {l : List α} {a b : α}
    (h : l.getLast? = some b) : (a :: l).getLast? = some b := by
  cases l with
  | nil => simp at h
  | cons c cl => rw [List.getLast?_cons_cons]; exact h

theorem pass1_cons (s : Store) (e : XElem) (rest : List XElem) :
    pass1 s (e :: rest) = pass1 (pass1Step s e) rest := rfl

theorem pass1Step_attrs (s : Store) (e : XElem) :
    (pass1Step s e).node_attributes =
      match getId e with
      | none => s.node_attributes
      | some i => dictSet s.node_attributes i (mkAttrs e) := by
  unfold pass1Step
  cases getId e with
  | none => rfl
  | some i => simp [addNode_attrs]

theorem pass1Step_succ (s : Store) (e : XElem) :
    (pass1Step s e).succ =
      match getId e with
      | none => s.succ
      | some i => (addNode s i).succ := by
  unfold pass1Step
  cases getId e with
  | none => rfl
  | some i => rfl

theorem pass1Step_nodes (s : Store) (e : XElem) :
    (pass1Step s e).nodes =
      match getId e with
      | none => s.nodes
      | some i => (addNode s i).nodes := by
  unfold pass1Step
  cases getId e with
  | none => rfl
  | some i => rfl

theorem wf_pass1Step (s : Store) (e : XElem) (hwf : WFStore s) :
    WFStore (pass1Step s e) := by
  unfold WFStore
  rw [pass1Step_succ, pass1Step_nodes]
  cases getId e with
  | none => exact hwf
  | some i => exact wf_addNode s i hwf

theorem wf_pass1 : ∀ (es : List XElem) (s : Store), WFStore s →
    WFStore (pass1 s es) := by
  intro es
  induction es with
  | nil => intro s h; exact h
  | cons e rest ih =>
    intro s h
    rw [pass1_cons]
    exact ih _ (wf_pass1Step s e h)

theorem edgeRel_pass1Step (s : Store) (e : XElem) (x y : String) (hwf : WFStore s) :
    edgeRel (pass1Step s e) x y = edgeRel s x y := by
  unfold edgeRel
  rw [pass1Step_succ]
  cases getId e with
  | none => rfl
  | some i => exact edgeRel_addNode s i x y hwf

theorem edgeRel_pass1 : ∀ (es : List XElem) (s : Store) (x y : String), WFStore s →
    edgeRel (pass1 s es) x y = edgeRel s x y := by
  intro es
  induction es with
  | nil => intro s x y _; rfl
  | cons e rest ih =>
    intro s x y hwf
    rw [pass1_cons, ih _ x y (wf_pass1Step s e hwf)]
    exact edgeRel_pass1Step s e x y hwf

theorem edgeCount_pass1 : ∀ (es : List XElem) (s : Store),
    edgeCount (pass1 s es) = edgeCount s := by
  intro es
  induction es with
  | nil => intro s; rfl
  | cons e rest ih =>
    intro s
    rw [pass1_cons, ih]
    unfold pass1Step
    cases getId e with
    | none => rfl
    | some i =>
      show edgeCount (addNode s i) = edgeCount s
      exact edgeCount_addNode s i

theorem pass1_nodes_mem : ∀ (es : List XElem) (s : Store) (x : String),
    x ∈ (pass1 s es).nodes ↔ x ∈ s.nodes ∨ x ∈ idsP es := by
  intro es
  induction es with
  | nil => intro s x; simp [pass1, idsP]
  | cons e rest ih =>
    intro s x
    rw [pass1_cons, ih]
    unfold idsP
    rw [List.filterMap_cons]
    cases hid : getId e with
    | none =>
      rw [pass1Step_nodes, hid]
    | some i =>
      rw [pass1Step_nodes, hid, mem_addNode_nodes]
      simp only [List.mem_cons]
      tauto

theorem pass1_attrs : ∀ (es : List XElem) (s : Store) (x : String),
    lookupA (pass1 s es).node_attributes x =
      match (es.filter (fun e => decide (getId e = some x))).getLast? with
      | some e => some (mkAttrs e)
      | none => lookupA s.node_attributes x := by
  intro es
  induction es with
  | nil => intro s x; rfl
  | cons e rest ih =>
    intro s x
    rw [pass1_cons, ih]
    by_cases hid : getId e = some x
    · rw [List.filter_cons_of_pos (by simpa using hid)]
      cases hfl : (rest.filter (fun e => decide (getId e = some x))).getLast? with
      | some e2 => rw [getLast?_cons_some hfl]
      | none =>
        have hnil : rest.filter (fun e => decide (getId e = some x)) = [] :=
          List.getLast?_eq_none_iff.mp hfl
        rw [hnil]
        show lookupA (pass1Step s e).node_attributes x = some (mkAttrs e)
        rw [pass1Step_attrs, hid]
        exact lookupA_dictSet_self _ x (mkAttrs e)
    · rw [List.filter_cons_of_neg (by simpa using hid)]
      cases hfl : (rest.filter (fun e => decide (getId e = some x))).getLast? with
      | some e2 => rfl
      | none =>
        show lookupA (pass1Step s e).node_attributes x = lookupA s.node_attributes x
        rw [pass1Step_attrs]
        cases hid2 : getId e with
        | none => rfl
        | some i =>
          have hne : x ≠ i := by
            intro h
            subst h
            exact hid hid2
          exact lookupA_dictSet_other _ i x (mkAttrs e) hne

theorem inner_fold_eq (pid : String) : ∀ (cs : List XElem) (s : Store),
    cs.foldl (fun acc c =>
      match getId c with
      | none => acc
      | some cid => edgePairStep acc (pid, cid)) s =
    (cs.filterMap (fun c => (getId c).map (fun cid => (pid, cid)))).foldl
      edgePairStep s := by
  intro cs
  induction cs with
  | nil => intro s; rfl
  | cons c rest ih =>
    intro s
    rw [List.foldl_cons, List.filterMap_cons]
    cases hid : getId c with
    | none => exact ih s
    | some cid =>
      show List.foldl
          (fun acc c =>
            match getId c with
            | none => acc
            | some cid => edgePairStep acc (pid, cid))
          (edgePairStep s (pid, cid)) rest =
        List.foldl edgePairStep s
          ((pid, cid) :: rest.filterMap (fun c => (getId c).map (fun cid => (pid, cid))))
      rw [List.foldl_cons]
      exact ih (edgePairStep s (pid, cid))

theorem pass2Step_eq (s : Store) (e : XElem) :
    pass2Step s e = (elemPairs e).foldl edgePairStep s := by
  unfold pass2Step elemPairs
  cases getId e with
  | none => rfl
  | some pid => exact inner_fold_eq pid e.children s

theorem pass2_eq : ∀ (es : List XElem) (s : Store),
    pass2 s es = (pairsP es).foldl edgePairStep s := by
  intro es
  induction es with
  | nil => intro s; rfl
  | cons e rest ih =>
    intro s
    show pass2 (pass2Step s e) rest = _
    rw [ih]
    unfold pairsP
    rw [List.flatMap_cons, List.foldl_append, pass2Step_eq]

theorem wf_edgePairStep (s : Store) (p : String × String) (hwf : WFStore s) :
    WFStore (edgePairStep s p) :=
  wf_add_edge _ p.2 p.1 "child_of" (wf_add_edge s p.1 p.2 "parent_of" hwf)

theorem edgePairStep_attrs (s : Store) (p : String × String) :
    (edgePairStep s p).node_attributes = s.node_attributes := by
  unfold edgePairStep
  rw [add_edge_attrs, add_edge_attrs]

theorem edgePairStep_nodes_of_mem (s : Store) (p : String × String)
    (h1 : p.1 ∈ s.nodes) (h2 : p.2 ∈ s.nodes) :
    (edgePairStep s p).nodes = s.nodes := by
  unfold edgePairStep
  rw [add_edge_nodes_of_mem, add_edge_nodes_of_mem s p.1 p.2 _ h1 h2]
  · rw [add_edge_nodes_of_mem s p.1 p.2 _ h1 h2]
    exact h2
  · rw [add_edge_nodes_of_mem s p.1 p.2 _ h1 h2]
    exact h1

theorem edgeRel_edgePairStep (s : Store) (a b x y : String) (hwf : WFStore s) :
    edgeRel (edgePairStep s (a, b)) x y =
      if x = b ∧ y = a then some "child_of"
      else if x = a ∧ y = b then some "parent_of"
      else edgeRel s x y := by
  unfold edgePairStep
  rw [edgeRel_add_edge _ b a "child_of" x y (wf_add_edge s a b "parent_of" hwf),
    edgeRel_add_edge s a b "parent_of" x y hwf]

theorem edgeCount_edgePairStep (s : Store) (a b : String) (hwf : WFStore s)
    (hab : a ≠ b) (h1 : edgeRel s a b = none) (h2 : edgeRel s b a = none) :
    edgeCount (edgePairStep s (a, b)) = edgeCount s + 2 := by
  unfold edgePairStep
  rw [edgeCount_add_edge _ b a "child_of" (wf_add_edge s a b "parent_of" hwf)]
  rw [edgeCount_add_edge s a b "parent_of" hwf]
  rw [edgeRel_add_edge s a b "parent_of" b a hwf]
  have hcond : ¬ (b = a ∧ a = b) := fun h => hab h.1.symm
  rw [if_neg hcond, h1, h2]
  simp

/-- Both orientations of every pair. -/
def doubled (ps : List (String × String)) : List (String × String) :=
  ps.flatMap (fun p => [(p.1, p.2), (p.2, p.1)])

theorem mem_doubled (ps : List (String × String)) (x y : String) :
    (x, y) ∈ doubled ps ↔ (x, y) ∈ ps ∨ (y, x) ∈ ps := by
  unfold doubled
  rw [List.mem_flatMap]
  constructor
  · rintro ⟨⟨p1, p2⟩, hp, hmem⟩
    simp only [List.mem_cons, List.not_mem_nil, or_false, Prod.mk.injEq] at hmem
    rcases hmem with ⟨rfl, rfl⟩ | ⟨rfl, rfl⟩
    · exact Or.inl hp
    · exact Or.inr hp
  · intro h
    rcases h with h | h
    · exact ⟨(x, y), h, by simp⟩
    · exact ⟨(y, x), h, by simp⟩

theorem wf_fold_pairs : ∀ (ps : List (String × String)) (s : Store),
    WFStore s → WFStore (ps.foldl edgePairStep s) := by
  intro ps
  induction ps with
  | nil => intro s h; exact h
  | cons p rest ih =>
    intro s h
    rw [List.foldl_cons]
    exact ih _ (wf_edgePairStep s p h)

theorem fold_pairs_attrs : ∀ (ps : List (String × String)) (s : Store),
    (ps.foldl edgePairStep s).node_attributes = s.node_attributes := by
  intro ps
  induction ps with
  | nil => intro s; rfl
  | cons p rest ih =>
    intro s
    rw [List.foldl_cons, ih, edgePairStep_attrs]

theorem fold_pairs_nodes : ∀ (ps : List (String × String)) (s : Store),
    (∀ p ∈ ps, p.1 ∈ s.nodes ∧ p.2 ∈ s.nodes) →
    (ps.foldl edgePairStep s).nodes = s.nodes := by
  intro ps
  induction ps with
  | nil => intro s _; rfl
  | cons p rest ih =>
    intro s h
    have hp := h p (List.mem_cons_self _ _)
    have hstep : (edgePairStep s p).nodes = s.nodes :=
      edgePairStep_nodes_of_mem s p hp.1 hp.2
    rw [List.foldl_cons, ih _ ?rest, hstep]
    case rest =>
      intro q hq
      rw [hstep]
      exact h q (List.mem_cons_of_mem _ hq)

theorem fold_pairs_count : ∀ (ps : List (String × String)) (s : Store),
    WFStore s →
    (∀ p ∈ ps, edgeRel s p.1 p.2 = none ∧ edgeRel s p.2 p.1 = none) →
    (doubled ps).Nodup →
    edgeCount (ps.foldl edgePairStep s) = edgeCount s + 2 * ps.length := by
  intro ps
  induction ps with
  | nil => intro s _ _ _; simp
  | cons p rest ih =>
    obtain ⟨a, b⟩ := p
    intro s hwf hfresh hnd
    have hd : doubled ((a, b) :: rest) = (a, b) :: (b, a) :: doubled rest := rfl
    rw [hd, List.nodup_cons] at hnd
    obtain ⟨hnm1, hnd2⟩ := hnd
    rw [List.nodup_cons] at hnd2
    obtain ⟨hnm2, hnd3⟩ := hnd2
    have hnm1d : (a, b) ∉ doubled rest := fun h => hnm1 (List.mem_cons_of_mem _ h)
    have hab : a ≠ b := by
      intro h
      subst h
      exact hnm1 (List.mem_cons_self _ _)
    have hfa := hfresh (a, b) (List.mem_cons_self _ _)
    have hwf1 : WFStore (edgePairStep s (a, b)) := wf_edgePairStep s (a, b) hwf
    have hfresh2 : ∀ q ∈ rest, edgeRel (edgePairStep s (a, b)) q.1 q.2 = none ∧
        edgeRel (edgePairStep s (a, b)) q.2 q.1 = none := by
      intro q hq
      obtain ⟨x, y⟩ := q
      have hx1 : (x, y) ∈ doubled rest := (mem_doubled rest x y).mpr (Or.inl hq)
      have hx2 : (y, x) ∈ doubled rest := (mem_doubled rest y x).mpr (Or.inr hq)
      have hne1 : ¬ ((x, y) = (a, b)) := fun h => hnm1d (h ▸ hx1)
      have hne2 : ¬ ((x, y) = (b, a)) := fun h => hnm2 (h ▸ hx1)
      have hne3 : ¬ ((y, x) = (a, b)) := fun h => hnm1d (h ▸ hx2)
      have hne4 : ¬ ((y, x) = (b, a)) := fun h => hnm2 (h ▸ hx2)
      have hq2 := hfresh (x, y) (List.mem_cons_of_mem _ hq)
      constructor
      · rw [edgeRel_edgePairStep s a b x y hwf]
        rw [if_neg (fun h => hne2 (Prod.ext h.1 h.2)),
          if_neg (fun h => hne1 (Prod.ext h.1 h.2))]
        exact hq2.1
      · rw [edgeRel_edgePairStep s a b y x hwf]
        rw [if_neg (fun h => hne4 (Prod.ext h.1 h.2)),
          if_neg (fun h => hne3 (Prod.ext h.1 h.2))]
        exact hq2.2
    rw [List.foldl_cons, ih (edgePairStep s (a, b)) hwf1 hfresh2 hnd3,
      edgeCount_edgePairStep s a b hwf hab hfa.1 hfa.2]
    simp only [List.length_cons]
    omega

/-- The symmetry invariant of the claim: an edge labeled `parent_of` exists
from a to b exactly when the reverse edge labeled `child_of` exists. -/
def SymmStore (s : Store) : Prop :=
  ∀ a b, edgeRel s a b = some "parent_of" ↔ edgeRel s b a = some "child_of"

theorem symm_of_no_edges (s : Store) (h : ∀ x y, edgeRel s x y = none) :
    SymmStore s := by
  intro a b
  rw [h a b, h b a]
  simp

theorem symm_edgePairStep (s : Store) (a b : String) (hwf : WFStore s)
    (hab : a ≠ b) (hsym : SymmStore s) : SymmStore (edgePairStep s (a, b)) := by
  intro x y
  rw [edgeRel_edgePairStep s a b x y hwf, edgeRel_edgePairStep s a b y x hwf]
  by_cases h1 : x = b ∧ y = a
  · rw [if_pos h1, if_neg (fun h : y = b ∧ x = a => hab (h.2.symm.trans h1.1)),
      if_pos ⟨h1.2, h1.1⟩]
    simp
  · rw [if_neg h1]
    by_cases h2 : x = a ∧ y = b
    · rw [if_pos h2, if_pos ⟨h2.2, h2.1⟩]
      simp
    · rw [if_neg h2, if_neg (fun h : y = b ∧ x = a => h2 ⟨h.2, h.1⟩),
        if_neg (fun h : y = a ∧ x = b => h1 ⟨h.2, h.1⟩)]
      exact hsym x y

theorem fold_pairs_symm : ∀ (ps : List (String × String)) (s : Store),
    WFStore s → (∀ p ∈ ps, p.1 ≠ p.2) → SymmStore s →
    SymmStore (ps.foldl edgePairStep s) := by
  intro ps
  induction ps with
  | nil => intro s _ _ h; exact h
  | cons p rest ih =>
    obtain ⟨a, b⟩ := p
    intro s hwf hne hsym
    rw [List.foldl_cons]
    exact ih _ (wf_edgePairStep s (a, b) hwf)
      (fun q hq => hne q (List.mem_cons_of_mem _ hq))
      (symm_edgePairStep s a b hwf (hne (a, b) (List.mem_cons_self _ _)) hsym)

theorem preorder1_eq (e : XElem) : preorder1 e = e :: preorderL e.children := by
  cases e
  rfl

theorem preorderL_append : ∀ (l1 l2 : List XElem),
    preorderL (l1 ++ l2) = preorderL l1 ++ preorderL l2 := by
  intro l1
  induction l1 with
  | nil => intro l2; rfl
  | cons c rest ih =>
    intro l2
    show preorder1 c ++ preorderL (rest ++ l2) =
      (preorder1 c ++ preorderL rest) ++ preorderL l2
    rw [ih, List.append_assoc]

theorem mem_preorderL_iff : ∀ (cs : List XElem) (e : XElem),
    e ∈ preorderL cs ↔ ∃ c ∈ cs, e ∈ preorder1 c := by
  intro cs
  induction cs with
  | nil => intro e; simp [preorderL]
  | cons c rest ih =>
    intro e
    show e ∈ preorder1 c ++ preorderL rest ↔ _
    rw [List.mem_append, ih]
    constructor
    · intro h
      rcases h with h | ⟨c2, hc2, he⟩
      · exact ⟨c, List.mem_cons_self _ _, h⟩
      · exact ⟨c2, List.mem_cons_of_mem _ hc2, he⟩
    · rintro ⟨c2, hc2, he⟩
      rcases List.mem_cons.mp hc2 with rfl | h2
      · exact Or.inl he
      · exact Or.inr ⟨c2, h2, he⟩

theorem self_mem_preorder1 (e : XElem) : e ∈ preorder1 e := by
  rw [preorder1_eq]
  exact List.mem_cons_self _ _

theorem sizeOf_child_lt {e c : XElem} (h : c ∈ e.children) : sizeOf c < sizeOf e := by
  obtain ⟨t, a, x, cs⟩ := e
  have h1 : sizeOf c < sizeOf cs := List.sizeOf_lt_of_mem h
  simp only [XElem.mk.sizeOf_spec]
  omega

theorem preorder_closed_aux : ∀ (n : Nat) (root : XElem), sizeOf root ≤ n →
    ∀ e ∈ preorder1 root, ∀ c ∈ e.children, c ∈ preorder1 root := by
  intro n
  induction n with
  | zero =>
    intro root hsz
    obtain ⟨t, a, x, cs⟩ := root
    simp only [XElem.mk.sizeOf_spec] at hsz
    omega
  | succ n ih =>
    intro root hsz e he c hc
    obtain ⟨t, a, x, cs⟩ := root
    rw [preorder1_eq] at he ⊢
    rcases List.mem_cons.mp he with rfl | he2
    · show c ∈ _ :: preorderL (XElem.mk t a x cs).children
      apply List.mem_cons_of_mem
      rw [mem_preorderL_iff]
      exact ⟨c, hc, self_mem_preorder1 c⟩
    · apply List.mem_cons_of_mem
      show c ∈ preorderL (XElem.mk t a x cs).children
      rw [mem_preorderL_iff] at he2 ⊢
      rcases he2 with ⟨c0, hc0, he3⟩
      have hsz0 : sizeOf c0 ≤ n := by
        have h2 : sizeOf c0 < sizeOf (XElem.mk t a x cs) :=
          sizeOf_child_lt hc0
        omega
      exact ⟨c0, hc0, ih c0 hsz0 e he3 c hc⟩

theorem preorder_closed (root : XElem) :
    ∀ e ∈ preorder1 root, ∀ c ∈ e.children, c ∈ preorder1 root :=
  preorder_closed_aux (sizeOf root) root (Nat.le_refl _)

theorem preorderL_closed (cs : List XElem) :
    ∀ e ∈ preorderL cs, ∀ c ∈ e.children, c ∈ preorderL cs := by
  intro e he c hc
  rw [mem_preorderL_iff] at he ⊢
  rcases he with ⟨c0, hc0, he2⟩
  exact ⟨c0, hc0, preorder_closed c0 e he2 c hc⟩

theorem mem_idsP (es : List XElem) (e : XElem) (he : e ∈ es) (i : String)
    (h : getId e = some i) : i ∈ idsP es := by
  unfold idsP
  rw [List.mem_filterMap]
  exact ⟨e, he, h⟩

theorem pairsP_mem_elim (es : List XElem) (x y : String)
    (h : (x, y) ∈ pairsP es) :
    ∃ e ∈ es, getId e = some x ∧ ∃ c ∈ e.children, getId c = some y := by
  unfold pairsP at h
  rw [List.mem_flatMap] at h
  rcases h with ⟨e, he, hmem⟩
  unfold elemPairs at hmem
  cases hid : getId e with
  | none => rw [hid] at hmem; simp at hmem
  | some pid =>
    rw [hid] at hmem
    rw [List.mem_filterMap] at hmem
    rcases hmem with ⟨c, hc, hc2⟩
    cases hcid : getId c with
    | none => rw [hcid] at hc2; simp at hc2
    | some cid =>
      rw [hcid] at hc2
      simp only [Option.map_some'] at hc2
      have h3 := Option.some.inj hc2
      rw [Prod.mk.injEq] at h3
      obtain ⟨h4, h5⟩ := h3
      subst h4
      subst h5
      exact ⟨e, he, hid, c, hc, hcid⟩

theorem pairsP_comp (es : List XElem)
    (hcl : ∀ e ∈ es, ∀ c ∈ e.children, c ∈ es) (x y : String)
    (h : (x, y) ∈ pairsP es) : x ∈ idsP es ∧ y ∈ idsP es := by
  rcases pairsP_mem_elim es x y h with ⟨e, he, hid, c, hc, hcid⟩
  exact ⟨mem_idsP es e he x hid, mem_idsP es c (hcl e he c hc) y hcid⟩

theorem idsP_append (l1 l2 : List XElem) :
    idsP (l1 ++ l2) = idsP l1 ++ idsP l2 := by
  unfold idsP
  rw [List.filterMap_append]

theorem pairsP_append (l1 l2 : List XElem) :
    pairsP (l1 ++ l2) = pairsP l1 ++ pairsP l2 := by
  unfold pairsP
  rw [List.flatMap_append]

theorem doubled_append (l1 l2 : List (String × String)) :
    doubled (l1 ++ l2) = doubled l1 ++ doubled l2 := by
  unfold doubled
  rw [List.flatMap_append]

theorem child_ids_sublist : ∀ (cs : List XElem),
    (cs.filterMap getId).Sublist (idsP (preorderL cs)) := by
  intro cs
  induction cs with
  | nil => simp [preorderL, idsP]
  | cons c rest ih =>
    show ((c :: rest).filterMap getId).Sublist (idsP (preorder1 c ++ preorderL rest))
    rw [idsP_append, List.filterMap_cons]
    cases hid : getId c with
    | none =>
      show (rest.filterMap getId).Sublist (idsP (preorder1 c) ++ idsP (preorderL rest))
      exact List.sublist_append_of_sublist_right ih
    | some i =>
      rw [preorder1_eq]
      show (i :: rest.filterMap getId).Sublist (idsP (c :: preorderL c.children) ++ _)
      unfold idsP
      rw [List.filterMap_cons, hid]
      show (i :: rest.filterMap getId).Sublist
        ((i :: (preorderL c.children).filterMap getId) ++
          (preorderL rest).filterMap getId)
      rw [List.cons_append]
      exact List.Sublist.cons₂ i (List.sublist_append_of_sublist_right ih)

theorem mem_pair_flatMap (pid : String) (l : List String) (x y : String) :
    (x, y) ∈ l.flatMap (fun b => [(pid, b), (b, pid)]) ↔
      (x = pid ∧ y ∈ l) ∨ (x ∈ l ∧ y = pid) := by
  rw [List.mem_flatMap]
  constructor
  · rintro ⟨b, hb, hmem⟩
    simp only [List.mem_cons, List.not_mem_nil, or_false, Prod.mk.injEq] at hmem
    rcases hmem with ⟨rfl, rfl⟩ | ⟨rfl, rfl⟩
    · exact Or.inl ⟨rfl, hb⟩
    · exact Or.inr ⟨hb, rfl⟩
  · rintro (⟨rfl, hy⟩ | ⟨hx, rfl⟩)
    · exact ⟨y, hy, by simp⟩
    · exact ⟨x, hx, by simp⟩

theorem pair_flatMap_nodup (pid : String) : ∀ (l : List String),
    l.Nodup → pid ∉ l →
    (l.flatMap (fun b => [(pid, b), (b, pid)])).Nodup := by
  intro l
  induction l with
  | nil => intro _ _; simp
  | cons b rest ih =>
    intro hnd hpid
    rw [List.nodup_cons] at hnd
    have hbp : b ≠ pid := fun h => hpid (h ▸ List.mem_cons_self _ _)
    have hpm : pid ∉ rest := fun h => hpid (List.mem_cons_of_mem _ h)
    show ((pid, b) :: (b, pid) :: rest.flatMap (fun b => [(pid, b), (b, pid)])).Nodup
    rw [List.nodup_cons, List.nodup_cons]
    refine ⟨?_, ?_, ih hnd.2 hpm⟩
    · intro hmem
      rcases List.mem_cons.mp hmem with h | h
      · rw [Prod.mk.injEq] at h
        exact hbp h.1.symm
      · rcases (mem_pair_flatMap pid rest pid b).mp h with ⟨_, hy⟩ | ⟨hx, hy⟩
        · exact hnd.1 hy
        · exact hpm hx
    · intro hmem
      rcases (mem_pair_flatMap pid rest b pid).mp hmem with ⟨hx, _⟩ | ⟨hx, _⟩
      · exact hbp hx
      · exact hnd.1 hx

theorem elemPairs_eq_map (t : String) (a : List (String × String))
    (x : Option String) (cs : List XElem) (pid : String)
    (hid : getId (.mk t a x cs) = some pid) :
    elemPairs (.mk t a x cs) =
      (cs.filterMap getId).map (fun cid => (pid, cid)) := by
  unfold elemPairs
  rw [hid, List.map_filterMap]
  rfl

theorem doubled_map_pair (pid : String) (l : List String) :
    doubled (l.map (fun cid => (pid, cid))) =
      l.flatMap (fun b => [(pid, b), (b, pid)]) := by
  unfold doubled
  rw [List.flatMap_map]

theorem idsP_preorder1 (t : String) (a : List (String × String))
    (x : Option String) (cs : List XElem) :
    idsP (preorder1 (.mk t a x cs)) =
      (match getId (.mk t a x cs) with
       | some i => i :: idsP (preorderL cs)
       | none => idsP (preorderL cs)) := by
  rw [preorder1_eq]
  unfold idsP
  rw [List.filterMap_cons]
  cases getId (XElem.mk t a x cs) <;> rfl

theorem pairsP_preorder1 (t : String) (a : List (String × String))
    (x : Option String) (cs : List XElem) :
    pairsP (preorder1 (.mk t a x cs)) =
      elemPairs (.mk t a x cs) ++ pairsP (preorderL cs) := by
  rw [preorder1_eq]
  rfl

theorem pairsP_preorderL_cons (c : XElem) (rest : List XElem) :
    pairsP (preorderL (c :: rest)) =
      pairsP (preorder1 c) ++ pairsP (preorderL rest) := by
  show pairsP (preorder1 c ++ preorderL rest) = _
  rw [pairsP_append]

theorem idsP_preorderL_cons (c : XElem) (rest : List XElem) :
    idsP (preorderL (c :: rest)) =
      idsP (preorder1 c) ++ idsP (preorderL rest) := by
  show idsP (preorder1 c ++ preorderL rest) = _
  rw [idsP_append]

theorem doubled_nodup_aux : ∀ (n : Nat),
    (∀ e : XElem, sizeOf e ≤ n → (idsP (preorder1 e)).Nodup →
      (doubled (pairsP (preorder1 e))).Nodup) ∧
    (∀ cs : List XElem, sizeOf cs ≤ n → (idsP (preorderL cs)).Nodup →
      (doubled (pairsP (preorderL cs))).Nodup) := by
  intro n
  induction n with
  | zero =>
    constructor
    · intro e hsz
      exfalso
      obtain ⟨t, a, x, cs⟩ := e
      simp only [XElem.mk.sizeOf_spec] at hsz
      omega
    · intro cs hsz
      exfalso
      cases cs with
      | nil => simp at hsz
      | cons c rest => simp at hsz
  | succ n ih =>
    obtain ⟨ihE, ihL⟩ := ih
    constructor
    · intro e hsz hnd
      obtain ⟨t, a, x, cs⟩ := e
      have hszcs : sizeOf cs ≤ n := by
        simp only [XElem.mk.sizeOf_spec] at hsz
        omega
      rw [pairsP_preorder1]
      rw [idsP_preorder1] at hnd
      cases hid : getId (XElem.mk t a x cs) with
      | none =>
        rw [hid] at hnd
        have h0 : elemPairs (XElem.mk t a x cs) = [] := by
          unfold elemPairs
          rw [hid]
        rw [h0, List.nil_append]
        exact ihL cs hszcs hnd
      | some pid =>
        rw [hid] at hnd
        rw [List.nodup_cons] at hnd
        obtain ⟨hpid, hndL⟩ := hnd
        rw [doubled_append, List.nodup_append]
        refine ⟨?_, ihL cs hszcs hndL, ?_⟩
        · rw [elemPairs_eq_map t a x cs pid hid, doubled_map_pair]
          apply pair_flatMap_nodup
          · exact List.Nodup.sublist (child_ids_sublist cs) hndL
          · intro hmem
            exact hpid ((child_ids_sublist cs).subset hmem)
        · intro p hp hp2
          obtain ⟨px, py⟩ := p
          rw [elemPairs_eq_map t a x cs pid hid, doubled_map_pair] at hp
          rcases (mem_pair_flatMap pid _ px py).mp hp with ⟨rfl, _⟩ | ⟨_, rfl⟩
          · rcases (mem_doubled _ px py).mp hp2 with h | h
            · exact hpid (pairsP_comp _ (preorderL_closed cs) px py h).1
            · exact hpid (pairsP_comp _ (preorderL_closed cs) py px h).2
          · rcases (mem_doubled _ px py).mp hp2 with h | h
            · exact hpid (pairsP_comp _ (preorderL_closed cs) px py h).2
            · exact hpid (pairsP_comp _ (preorderL_closed cs) py px h).1
    · intro cs hsz hnd
      cases cs with
      | nil => simp [preorderL, pairsP, doubled]
      | cons c rest =>
        have hszc : sizeOf c ≤ n := by
          simp only [List.cons.sizeOf_spec] at hsz
          omega
        have hszr : sizeOf rest ≤ n := by
          simp only [List.cons.sizeOf_spec] at hsz
          have h1 : 1 ≤ sizeOf c := by
            obtain ⟨t, a, x, cs2⟩ := c
            simp only [XElem.mk.sizeOf_spec]
            omega
          omega
        rw [idsP_preorderL_cons, List.nodup_append] at hnd
        obtain ⟨hnd1, hnd2, hdisj⟩ := hnd
        rw [pairsP_preorderL_cons, doubled_append, List.nodup_append]
        refine ⟨ihE c hszc hnd1, ihL rest hszr hnd2, ?_⟩
        intro p hp hp2
        obtain ⟨px, py⟩ := p
        have hc1 : px ∈ idsP (preorder1 c) := by
          rcases (mem_doubled _ px py).mp hp with h | h
          · exact (pairsP_comp _ (preorder_closed c) px py h).1
          · exact (pairsP_comp _ (preorder_closed c) py px h).2
        have hc2 : px ∈ idsP (preorderL rest) := by
          rcases (mem_doubled _ px py).mp hp2 with h | h
          · exact (pairsP_comp _ (preorderL_closed rest) px py h).1
          · exact (pairsP_comp _ (preorderL_closed rest) py px h).2
        exact hdisj hc1 hc2

theorem doubled_nodup (root : XElem) (hnd : (idsP (preorder1 root)).Nodup) :
    (doubled (pairsP (preorder1 root))).Nodup :=
  (doubled_nodup_aux (sizeOf root)).1 root (Nat.le_refl _) hnd

theorem pairs_ne_of_doubled_nodup : ∀ (ps : List (String × String)),
    (doubled ps).Nodup → ∀ p ∈ ps, p.1 ≠ p.2 := by
  intro ps
  induction ps with
  | nil => intro _ p hp; simp at hp
  | cons q rest ih =>
    obtain ⟨a, b⟩ := q
    intro hnd p hp
    have hd : doubled ((a, b) :: rest) = (a, b) :: (b, a) :: doubled rest := rfl
    rw [hd, List.nodup_cons] at hnd
    rcases List.mem_cons.mp hp with rfl | hp2
    · intro hcontra
      simp only at hcontra
      subst hcontra
      exact hnd.1 (List.mem_cons_self _ _)
    · have hnd2 := hnd.2
      rw [List.nodup_cons] at hnd2
      exact ih hnd2.2 p hp2

theorem pass1_nodes_eq : ∀ (es : List XElem) (s : Store),
    (idsP es).Nodup → (∀ i ∈ idsP es, i ∉ s.nodes) →
    (pass1 s es).nodes = s.nodes ++ idsP es := by
  intro es
  induction es with
  | nil => intro s _ _; simp [pass1, idsP]
  | cons e rest ih =>
    intro s hnd hfresh
    rw [pass1_cons]
    have hids : idsP (e :: rest) =
        match getId e with
        | some i => i :: idsP rest
        | none => idsP rest := by
      unfold idsP
      rw [List.filterMap_cons]
      cases getId e <;> rfl
    cases hid : getId e with
    | none =>
      rw [hid] at hids
      rw [hids] at hnd hfresh ⊢
      have hstep : (pass1Step s e).nodes = s.nodes := by
        rw [pass1Step_nodes, hid]
      rw [ih (pass1Step s e) hnd (by rw [hstep]; exact hfresh), hstep]
    | some i =>
      rw [hid] at hids
      rw [hids] at hnd hfresh ⊢
      rw [List.nodup_cons] at hnd
      have hi : i ∉ s.nodes := hfresh i (List.mem_cons_self _ _)
      have hstep : (pass1Step s e).nodes = s.nodes ++ [i] := by
        rw [pass1Step_nodes, hid]
        show (addNode s i).nodes = s.nodes ++ [i]
        rw [addNode_nodes, if_neg hi]
      rw [ih (pass1Step s e) hnd.2 ?fresh, hstep, List.append_assoc]
      rfl
      case fresh =>
        intro j hj
        rw [hstep, List.mem_append]
        intro hcontra
        rcases hcontra with h | h
        · exact hfresh j (List.mem_cons_of_mem _ hj) h
        · rw [List.mem_singleton] at h
          exact hnd.1 (h ▸ hj)

theorem edgeRel_emptyStore (x y : String) : edgeRel emptyStore x y = none := rfl

theorem built_store_eq (path : String) (root : XElem) :
    (parse_xml path (.wellFormed root) emptyStore).2 =
      pass2 (pass1 emptyStore (preorder1 root)) (preorder1 root) := rfl

theorem parse_wellFormed_ok (path : String) (root : XElem) (s : Store) :
    (parse_xml path (.wellFormed root) s).1 = none := rfl

theorem parse_counts (path : String) (root : XElem)
    (hnd : (idsP (preorder1 root)).Nodup) :
    (parse_xml path (.wellFormed root) emptyStore).1 = none ∧
    (parse_xml path (.wellFormed root) emptyStore).2.nodes.length =
      (idsP (preorder1 root)).length ∧
    edgeCount (parse_xml path (.wellFormed root) emptyStore).2 =
      2 * (pairsP (preorder1 root)).length := by
  refine ⟨rfl, ?_, ?_⟩
  · rw [built_store_eq, pass2_eq]
    rw [fold_pairs_nodes]
    · rw [pass1_nodes_eq (preorder1 root) emptyStore hnd
        (by intro i _; simp [emptyStore])]
      simp [emptyStore]
    · intro p hp
      obtain ⟨x, y⟩ := p
      have hcomp := pairsP_comp (preorder1 root) (preorder_closed root) x y hp
      constructor
      · rw [pass1_nodes_mem]
        exact Or.inr hcomp.1
      · rw [pass1_nodes_mem]
        exact Or.inr hcomp.2
  · rw [built_store_eq, pass2_eq]
    rw [fold_pairs_count]
    · rw [edgeCount_pass1]
      show 0 + 2 * _ = 2 * _
      omega
    · exact wf_pass1 _ emptyStore wf_emptyStore
    · intro p hp
      constructor <;> rw [edgeRel_pass1 _ emptyStore _ _ wf_emptyStore] <;> rfl
    · exact doubled_nodup root hnd

theorem parse_symm (path : String) (root : XElem)
    (hne : ∀ p ∈ pairsP (preorder1 root), p.1 ≠ p.2) :
    SymmStore (parse_xml path (.wellFormed root) emptyStore).2 := by
  rw [built_store_eq, pass2_eq]
  apply fold_pairs_symm
  · exact wf_pass1 _ emptyStore wf_emptyStore
  · exact hne
  · apply symm_of_no_edges
    intro x y
    rw [edgeRel_pass1 _ emptyStore _ _ wf_emptyStore]
    rfl

theorem parse_attrs_last (path : String) (root : XElem) (x : String) (e : XElem)
    (hl : ((preorder1 root).filter
      (fun e2 => decide (getId e2 = some x))).getLast? = some e) :
    lookupA (parse_xml path (.wellFormed root) emptyStore).2.node_attributes x =
      some (mkAttrs e) := by
  rw [built_store_eq, pass2_eq, fold_pairs_attrs, pass1_attrs, hl]

theorem parse_node_count_one (path : String) (root : XElem) (x : String)
    (hx : x ∈ idsP (preorder1 root)) :
    (parse_xml path (.wellFormed root) emptyStore).2.nodes.count x = 1 := by
  rw [built_store_eq, pass2_eq]
  rw [fold_pairs_nodes]
  · apply List.count_eq_one_of_mem
    · exact (wf_pass1 (preorder1 root) emptyStore wf_emptyStore).2
    · rw [pass1_nodes_mem]
      exact Or.inr hx
  · intro p hp
    obtain ⟨a, b⟩ := p
    have hcomp := pairsP_comp (preorder1 root) (preorder_closed root) a b hp
    constructor
    · rw [pass1_nodes_mem]
      exact Or.inr hcomp.1
    · rw [pass1_nodes_mem]
      exact Or.inr hcomp.2

/-- Specification-side dedup: keep each context whose joined
`tag_name_text` key differs from every earlier context's key, dropping the
later duplicates, in first-seen order. -/
def dedupByKeyFirst : List NodeCtx → List NodeCtx
  | [] => []
  | c :: rest =>
    c :: dedupByKeyFirst (rest.filter (fun d => decide (ctxKey d ≠ ctxKey c)))
termination_by l => l.length
decreasing_by
  simp only [List.length_cons]
  exact Nat.lt_succ_of_le (List.length_filter_le _ rest)

theorem fcLoop_eq : ∀ (cs : List NodeCtx) (seen : List String) (fmt : List String),
    fcLoop cs seen fmt =
      fmt ++ (dedupByKeyFirst
        (cs.filter (fun c => decide (ctxKey c ∉ seen)))).map renderCtx := by
  intro cs
  induction cs with
  | nil => intro seen fmt; simp [fcLoop, dedupByKeyFirst]
  | cons c rest ih =>
    intro seen fmt
    by_cases h : ctxKey c ∈ seen
    · show (if ctxKey c ∈ seen then fcLoop rest seen fmt else _) = _
      rw [if_pos h, List.filter_cons_of_neg (by simpa using h)]
      exact ih seen fmt
    · show (if ctxKey c ∈ seen then _
        else fcLoop rest (ctxKey c :: seen) (fmt ++ [renderCtx c])) = _
      rw [if_neg h, List.filter_cons_of_pos (by simpa using h)]
      rw [ih (ctxKey c :: seen) (fmt ++ [renderCtx c])]
      have hfil : rest.filter (fun d => decide (ctxKey d ∉ ctxKey c :: seen)) =
          (rest.filter (fun d => decide (ctxKey d ∉ seen))).filter
            (fun d => decide (ctxKey d ≠ ctxKey c)) := by
        rw [List.filter_filter]
        apply List.filter_congr
        intro d _
        by_cases h1 : ctxKey d = ctxKey c
        · simp [h1, List.mem_cons]
        · by_cases h2 : ctxKey d ∈ seen <;> simp [h1, h2, List.mem_cons]
      rw [dedupByKeyFirst, ← hfil]
      simp

theorem format_context_eq (cs : List NodeCtx) :
    format_context cs =
      String.intercalate "\n" ((dedupByKeyFirst cs).map renderCtx) := by
  unfold format_context
  rw [fcLoop_eq]
  have h : cs.filter (fun c => decide (ctxKey c ∉ ([] : List String))) = cs := by
    apply List.filter_eq_self.mpr
    intro c _
    simp
  rw [h]
  rw [List.nil_append]

theorem dedup_append_dup_aux : ∀ (n : Nat) (cs : List NodeCtx) (c : NodeCtx),
    cs.length ≤ n → (∃ x ∈ cs, ctxKey x = ctxKey c) →
    dedupByKeyFirst (cs ++ [c]) = dedupByKeyFirst cs := by
  intro n
  induction n with
  | zero =>
    intro cs c hlen hex
    have : cs = [] := List.length_eq_zero.mp (Nat.le_zero.mp hlen)
    subst this
    simp at hex
  | succ n ih =>
    intro cs c hlen hex
    cases cs with
    | nil => simp at hex
    | cons x rest =>
      rw [List.cons_append, dedupByKeyFirst, dedupByKeyFirst]
      congr 1
      rw [List.filter_append]
      by_cases hkey : ctxKey c = ctxKey x
      · have h0 : [c].filter (fun d => decide (ctxKey d ≠ ctxKey x)) = [] := by
          simp [hkey]
        rw [h0, List.append_nil]
      · have h0 : [c].filter (fun d => decide (ctxKey d ≠ ctxKey x)) = [c] := by
          simp [hkey]
        rw [h0]
        apply ih
        · have h1 : (rest.filter (fun d => decide (ctxKey d ≠ ctxKey x))).length ≤
              rest.length := List.length_filter_le _ rest
          simp only [List.length_cons] at hlen
          omega
        · rcases hex with ⟨w, hw, hwkey⟩
          rcases List.mem_cons.mp hw with rfl | hw2
          · exact absurd hwkey.symm hkey
          · refine ⟨w, ?_, hwkey⟩
            rw [List.mem_filter]
            refine ⟨hw2, ?_⟩
            simp only [decide_eq_true_eq]
            rw [hwkey]
            exact hkey

theorem format_context_absorb (cs : List NodeCtx) (c : NodeCtx) (hc : c ∈ cs) :
    format_context (cs ++ [c]) = format_context cs := by
  rw [format_context_eq, format_context_eq]
  rw [dedup_append_dup_aux cs.length cs c (Nat.le_refl _) ⟨c, hc, rfl⟩]

/-- The end-to-end example document of the spec:
`<Database id="d1"><Table id="t1" name="Orders"><Field id="f1" name="Status"/></Table></Database>`. -/
def exDoc : XElem :=
  .mk "Database" [("id", "d1")] none
    [.mk "Table" [("id", "t1"), ("name", "Orders")] none
      [.mk "Field" [("id", "f1"), ("name", "Status")] none []]]

def exStore : Store := (parse_xml "ex.xml" (.wellFormed exDoc) emptyStore).2

/-- A document in which an element and its direct child share the id "X". -/
def dupDoc : XElem :=
  .mk "a" [("id", "X")] none [.mk "b" [("id", "X")] none []]

def dupStore : Store := (parse_xml "d.xml" (.wellFormed dupDoc) emptyStore).2

/-- A document whose duplicate id "b" merges two elements, giving the built
graph a cycle: s–a, a–b, b–c and s–b. -/
def cexDoc : XElem :=
  .mk "r" [("id", "s")] none
    [.mk "x" [("id", "a")] none
      [.mk "y" [("id", "b")] none [.mk "w" [("id", "c")] none []]],
     .mk "z" [("id", "b")] none []]

def cexStore : Store := (parse_xml "c.xml" (.wellFormed cexDoc) emptyStore).2

/-- Two contexts whose (tag, name, text) triples differ but whose joined
`tag_name_text` dedup keys coincide ("a_b_c_d"). -/
def ctxU1 : NodeCtx := ⟨[("tag", "a"), ("name", "b_c"), ("text", "d")], [], []⟩

def ctxU2 : NodeCtx := ⟨[("tag", "a_b"), ("name", "c"), ("text", "d")], [], []⟩

/-- C3: for a tree whose non-empty element ids are all distinct, `parse_xml`
succeeds and the built store has exactly one node per identified element and
exactly two directed edges per identified direct parent-child pair. -/
theorem claim_C3 (path : String) (root : XElem)
    (hnd : (idsP (preorder1 root)).Nodup) :
    (parse_xml path (.wellFormed root) emptyStore).1 = none ∧
    (parse_xml path (.wellFormed root) emptyStore).2.nodes.length =
      (idsP (preorder1 root)).length ∧
    edgeCount (parse_xml path (.wellFormed root) emptyStore).2 =
      2 * (pairsP (preorder1 root)).length :=
  parse_counts path root hnd

/-- Witness for C3 at the example document: 3 nodes and 4 edges. -/
theorem claim_C3_witness :
    (idsP (preorder1 exDoc)).Nodup ∧
    ((parse_xml "ex.xml" (.wellFormed exDoc) emptyStore).1 = none ∧
    (parse_xml "ex.xml" (.wellFormed exDoc) emptyStore).2.nodes.length =
      (idsP (preorder1 exDoc)).length ∧
    edgeCount (parse_xml "ex.xml" (.wellFormed exDoc) emptyStore).2 =
      2 * (pairsP (preorder1 exDoc)).length) :=
  ⟨by decide, claim_C3 "ex.xml" exDoc (by decide)⟩

/-- C4 as stated is false: in the store built from `dupDoc` the self-loop
X→X is labeled `child_of` (the second `add_edge` overwrote `parent_of`),
and no edge X→X labeled `parent_of` exists. -/
theorem claim_C4_counterexample :
    edgeRel dupStore "X" "X" = some "child_of" ∧
    ¬ edgeRel dupStore "X" "X" = some "parent_of" := by
  constructor
  · rfl
  · intro h
    exact absurd (rfl.trans h) (by decide)

/-- C4 amended: for every input tree in which no identified element has a
direct child carrying the same id, the built store is symmetric: an edge
a→b labeled `parent_of` exists exactly when b→a labeled `child_of` exists. -/
theorem claim_C4 (path : String) (root : XElem)
    (hne : ∀ p ∈ pairsP (preorder1 root), p.1 ≠ p.2) :
    SymmStore (parse_xml path (.wellFormed root) emptyStore).2 :=
  parse_symm path root hne

/-- Witness for C4 at the example document. -/
theorem claim_C4_witness :
    (∀ p ∈ pairsP (preorder1 exDoc), p.1 ≠ p.2) ∧
    SymmStore (parse_xml "ex.xml" (.wellFormed exDoc) emptyStore).2 :=
  ⟨by decide, claim_C4 "ex.xml" exDoc (by decide)⟩

/-- C5: evaluating `parse_xml` on a missing path shows the bug the claim
exposes: the raised missing-file `FileMakerGraphError` is caught by the
function's own `except Exception` clause and re-raised wrapped in the
generic "Error parsing XML: …" message, so the failure does not surface as
the distinct not-found error; the store is left untouched (no nodes, no
edges, no attribute records). -/
theorem claim_C5 :
    parse_xml "missing.xml" .missing emptyStore =
      (some ⟨"Error parsing XML: XML file not found: missing.xml"⟩, emptyStore) ∧
    (parse_xml "missing.xml" .missing emptyStore).2.nodes = [] ∧
    (parse_xml "missing.xml" .missing emptyStore).2.succ = [] ∧
    (parse_xml "missing.xml" .missing emptyStore).2.node_attributes = [] ∧
    ¬ (parse_xml "missing.xml" .missing emptyStore).1 =
      some ⟨"XML file not found: missing.xml"⟩ :=
  ⟨rfl, rfl, rfl, rfl, by decide⟩

/-- C6: on any store whose attribute table agrees with its node set (true
of every store the builder produces), a lookup of an identifier that is not
a node makes `bfs_search`, `dfs_search` and `get_node_context` each raise
the not-found `FileMakerGraphError`; none returns an empty success. -/
theorem claim_C6 (s : Store) (x : String) (k : Nat)
    (h1 : x ∉ s.nodes) (h2 : lookupA s.node_attributes x = none) :
    bfs_search s x k = .error ⟨"Start node not found: " ++ x⟩ ∧
    dfs_search s x k = .error ⟨"Start node not found: " ++ x⟩ ∧
    get_node_context s x = .error ⟨"Node not found: " ++ x⟩ := by
  refine ⟨?_, ?_, ?_⟩
  · simp [bfs_search, h1]
  · simp [dfs_search, h1]
  · unfold get_node_context
    rw [h2]

/-- Witness for C6: the identifier "zz" is absent from the example store. -/
theorem claim_C6_witness :
    ("zz" ∉ exStore.nodes ∧ lookupA exStore.node_attributes "zz" = none) ∧
    (bfs_search exStore "zz" 4 = .error ⟨"Start node not found: zz"⟩ ∧
    dfs_search exStore "zz" 4 = .error ⟨"Start node not found: zz"⟩ ∧
    get_node_context exStore "zz" = .error ⟨"Node not found: zz"⟩) :=
  ⟨⟨by decide, rfl⟩, claim_C6 exStore "zz" 4 (by decide) rfl⟩

/-- C7 as stated is false: `format_context` keys contexts by the joined
string `tag_name_text`, so `ctxU2`, whose (tag, name, text) triple differs
from `ctxU1`'s, is still dropped because the joined keys collide. -/
theorem claim_C7_counterexample :
    format_context [ctxU1, ctxU2] = renderCtx ctxU1 ∧
    ¬ ((lookupA ctxU2.attributes "tag").getD "" =
        (lookupA ctxU1.attributes "tag").getD "" ∧
      (lookupA ctxU2.attributes "name").getD "" =
        (lookupA ctxU1.attributes "name").getD "" ∧
      (lookupA ctxU2.attributes "text").getD "" =
        (lookupA ctxU1.attributes "text").getD "") :=
  ⟨rfl, by decide⟩

/-- C7 amended: `format_context` deduplicates exactly by the joined string
key `tag ++ "_" ++ name ++ "_" ++ text`: a context is dropped if and only
if its joined key equals an earlier context's key (even when built from
different node identifiers), and the surviving lines appear in first-seen
order — the output equals the first-occurrence-per-key sublist rendered in
order. -/
theorem claim_C7 (cs : List NodeCtx) :
    format_context cs =
      String.intercalate "\n" ((dedupByKeyFirst cs).map renderCtx) :=
  format_context_eq cs

/-- C8: `format_context` is deterministic, and appending an exact copy of a
context already in the list leaves the output unchanged. -/
theorem claim_C8 (cs : List NodeCtx) (c : NodeCtx) (hc : c ∈ cs) :
    format_context cs = format_context cs ∧
    format_context (cs ++ [c]) = format_context cs :=
  ⟨rfl, format_context_absorb cs c hc⟩

/-- Witness for C8 with a concrete context list. -/
theorem claim_C8_witness :
    ctxU1 ∈ [ctxU1, ctxU2] ∧
    (format_context [ctxU1, ctxU2] = format_context [ctxU1, ctxU2] ∧
    format_context ([ctxU1, ctxU2] ++ [ctxU1]) = format_context [ctxU1, ctxU2]) :=
  ⟨by decide, claim_C8 [ctxU1, ctxU2] ctxU1 (by decide)⟩

/-- C9: the end-to-end example: the built store has 3 nodes; t1's stored
attributes are its raw attributes plus tag "Table" and text ""; breadth
first search from t1 with one hop returns exactly [[t1],[t1,d1],[t1,f1]];
and t1's context has exactly one parent d1 and one child f1. -/
theorem claim_C9 :
    exStore.nodes.length = 3 ∧
    lookupA exStore.node_attributes "t1" =
      some [("id", "t1"), ("name", "Orders"), ("tag", "Table"), ("text", "")] ∧
    bfs_search exStore "t1" 1 = .ok [["t1"], ["t1", "d1"], ["t1", "f1"]] ∧
    get_node_context exStore "t1" =
      .ok ⟨[("id", "t1"), ("name", "Orders"), ("tag", "Table"), ("text", "")],
        [("d1", [("id", "d1"), ("tag", "Database"), ("text", "")])],
        [("f1", [("id", "f1"), ("name", "Status"), ("tag", "Field"), ("text", "")])]⟩ := by
  refine ⟨by rfl, by rfl, by rfl, by rfl⟩

/-- C10: `parse_xml` succeeds on any tree, stores exactly one node per
identifier, and when several elements carry the same id the stored
attribute record is the one built from the last such element in pre-order
document order. -/
theorem claim_C10 (path : String) (root : XElem) (x : String) (e : XElem)
    (hl : ((preorder1 root).filter
      (fun e2 => decide (getId e2 = some x))).getLast? = some e) :
    (parse_xml path (.wellFormed root) emptyStore).1 = none ∧
    lookupA (parse_xml path (.wellFormed root) emptyStore).2.node_attributes x =
      some (mkAttrs e) ∧
    (parse_xml path (.wellFormed root) emptyStore).2.nodes.count x = 1 := by
  refine ⟨rfl, parse_attrs_last path root x e hl, ?_⟩
  apply parse_node_count_one
  have hmem := List.mem_of_getLast?_eq_some hl
  rw [List.mem_filter] at hmem
  exact mem_idsP _ e hmem.1 x (by simpa using hmem.2)

/-- Witness for C10 at `dupDoc`: the child element, last in document order
with id "X", supplies the surviving attribute record. -/
theorem claim_C10_witness :
    ((preorder1 dupDoc).filter
      (fun e2 => decide (getId e2 = some "X"))).getLast? =
        some (.mk "b" [("id", "X")] none []) ∧
    ((parse_xml "d.xml" (.wellFormed dupDoc) emptyStore).1 = none ∧
    lookupA (parse_xml "d.xml" (.wellFormed dupDoc) emptyStore).2.node_attributes
      "X" = some (mkAttrs (.mk "b" [("id", "X")] none [])) ∧
    (parse_xml "d.xml" (.wellFormed dupDoc) emptyStore).2.nodes.count "X" = 1) :=
  ⟨rfl, claim_C10 "d.xml" dupDoc "X" (.mk "b" [("id", "X")] none []) rfl⟩

/-- C1 as stated is false for `dfs_search`: in the store built from
`cexDoc`, node "c" is at shortest-path distance 2 from "s", yet depth-first
search with maxHops 2 visits "b" at depth 2 via the longer branch first,
blocking the short route, so no returned path ends at "c". -/
theorem claim_C1_counterexample :
    dfs_search cexStore "s" 2 = .ok [["s"], ["s", "a"], ["s", "a", "b"]] ∧
    "c" ∈ reachF (adjOf cexStore) "s" 2 ∧
    ∀ p ∈ [["s"], ["s", "a"], ["s", "a", "b"]], ¬ p.getLast? = some "c" := by
  refine ⟨by rfl, by decide, by decide⟩

/-- C1 amended: on every well-formed store (duplicate-free node list,
adjacency closed over the node set) with `start` a node, every path
returned by `bfs_search` or `dfs_search` begins with `start`; and every
node within `maxHops` of `start` by shortest-path distance is the last
element of some `bfs_search` path.  Depth-first search does not provide
that coverage guarantee (see the counterexample). -/
theorem claim_C1 (s : Store) (start : String) (maxHops : Nat)
    (hnd : s.nodes.Nodup)
    (hcl : ∀ u ∈ s.nodes, ∀ v ∈ adjOf s u, v ∈ s.nodes)
    (hs : start ∈ s.nodes) :
    (∃ R, bfs_search s start maxHops = .ok R ∧
      (∀ p ∈ R, p.head? = some start) ∧
      (∀ w ∈ reachF (adjOf s) start maxHops, ∃ p ∈ R, p.getLast? = some w)) ∧
    (∃ R2, dfs_search s start maxHops = .ok R2 ∧
      ∀ p ∈ R2, p.head? = some start) := by
  constructor
  · rcases bfs_search_covers s start maxHops hnd hcl hs with ⟨R, hok, hshape, hcov⟩
    exact ⟨R, hok, fun p hp => (hshape p hp).1, hcov⟩
  · rcases dfs_search_shape s start maxHops hs with ⟨R2, hok, hshape⟩
    exact ⟨R2, hok, fun p hp => (hshape p hp).1⟩

/-- Witness for C1 at the example store, start t1, one hop. -/
theorem claim_C1_witness :
    (exStore.nodes.Nodup ∧
      (∀ u ∈ exStore.nodes, ∀ v ∈ adjOf exStore u, v ∈ exStore.nodes) ∧
      "t1" ∈ exStore.nodes) ∧
    ((∃ R, bfs_search exStore "t1" 1 = .ok R ∧
      (∀ p ∈ R, p.head? = some "t1") ∧
      (∀ w ∈ reachF (adjOf exStore) "t1" 1, ∃ p ∈ R, p.getLast? = some w)) ∧
    (∃ R2, dfs_search exStore "t1" 1 = .ok R2 ∧
      ∀ p ∈ R2, p.head? = some "t1")) :=
  ⟨⟨by decide, by decide, by decide⟩,
    claim_C1 exStore "t1" 1 (by decide) (by decide) (by decide)⟩

/-- C2: `bfs_search(start, 0)` returns exactly `[[start]]`; every path
returned by `bfs_search(start, k)` or `dfs_search(start, k)` has at most
k+1 nodes; a node at shortest-path distance exactly k is still recorded by
`bfs_search` (the hop limit is inclusive); and a `dfs_recursive` call that
reaches an unvisited node at exactly k hops records its path. -/
theorem claim_C2 (s : Store) (start : String) (k : Nat)
    (hnd : s.nodes.Nodup)
    (hcl : ∀ u ∈ s.nodes, ∀ v ∈ adjOf s u, v ∈ s.nodes)
    (hs : start ∈ s.nodes) :
    bfs_search s start 0 = .ok [[start]] ∧
    (∃ R, bfs_search s start k = .ok R ∧
      (∀ p ∈ R, p.length ≤ k + 1) ∧
      (∀ w, DistIs (adjOf s) start w k → ∃ p ∈ R, p.getLast? = some w)) ∧
    (∃ R2, dfs_search s start k = .ok R2 ∧ ∀ p ∈ R2, p.length ≤ k + 1) ∧
    (∀ (fuel : Nat) (node : String) (path : List String) (st : DfsSt),
      node ∉ st.visited →
      path ∈ (dfsRec (adjOf s) k (fuel + 1) node path k st).paths) := by
  refine ⟨bfs_search_zero s start hs, ?_, ?_, ?_⟩
  · rcases bfs_search_covers s start k hnd hcl hs with ⟨R, hok, hshape, hcov⟩
    exact ⟨R, hok, fun p hp => (hshape p hp).2,
      fun w hw => hcov w hw.1⟩
  · rcases dfs_search_shape s start k hs with ⟨R2, hok, hshape⟩
    exact ⟨R2, hok, fun p hp => (hshape p hp).2⟩
  · intro fuel node path st hv
    exact dfsRec_records_at_limit (adjOf s) k fuel node path st hv

/-- Witness for C2 at the example store, start t1, one hop. -/
theorem claim_C2_witness :
    (exStore.nodes.Nodup ∧
      (∀ u ∈ exStore.nodes, ∀ v ∈ adjOf exStore u, v ∈ exStore.nodes) ∧
      "t1" ∈ exStore.nodes) ∧
    (bfs_search exStore "t1" 0 = .ok [["t1"]] ∧
    (∃ R, bfs_search exStore "t1" 1 = .ok R ∧
      (∀ p ∈ R, p.length ≤ 1 + 1) ∧
      (∀ w, DistIs (adjOf exStore) "t1" w 1 → ∃ p ∈ R, p.getLast? = some w)) ∧
    (∃ R2, dfs_search exStore "t1" 1 = .ok R2 ∧ ∀ p ∈ R2, p.length ≤ 1 + 1) ∧
    (∀ (fuel : Nat) (node : String) (path : List String) (st : DfsSt),
      node ∉ st.visited →
      path ∈ (dfsRec (adjOf exStore) 1 (fuel + 1) node path 1 st).paths)) :=
  ⟨⟨by decide, by decide, by decide⟩,
    claim_C2 exStore "t1" 1 (by decide) (by decide) (by decide)⟩
